import Mathlib

/-!
Verification of the sentiment-oracle data-integrity core
(`oracle-publisher/demo.py`, `oracle-publisher/compare_hashes.py`,
`oracle-publisher/verify_tampering.py`).

The Python values handled by this core are JSON-compatible records; we embed
them as the inductive `JValue`.  Numbers are embedded as arbitrary-precision
integers (Python ints); the special float values NaN / Infinity / -Infinity,
which `json.dumps` renders as the literals `NaN`, `Infinity`, `-Infinity`,
are embedded as dedicated constructors.  Finite non-integer floats are not
embedded (their canonicalization is IEEE-754 `repr`, outside this model).
Strings are lists of Unicode scalar values (`Char`), bytes are `Nat` values
below 256, and a parsed JSON text is modelled at the level of the value it
parses to.
-/

/-- A JSON-compatible Python value. Mapping fields keep insertion order. -/
inductive JValue where
  | null : JValue
  | bool (b : Bool) : JValue
  | num (n : Int) : JValue
  | nan : JValue
  | inf : JValue
  | negInf : JValue
  | str (s : List Char) : JValue
  | arr (xs : List JValue) : JValue
  | obj (fs : List (List Char × JValue)) : JValue

abbrev JField := List Char × JValue

mutual
/-- Structural equality of JSON values (Python `==` restricted to the
embedded domain; the numeric cross-type equalities of Python collapse here
because numbers are embedded as integers). -/
def jeq : JValue → JValue → Bool
  | .null, .null => true
  | .bool a, .bool b => a == b
  | .num a, .num b => a == b
  | .nan, .nan => true
  | .inf, .inf => true
  | .negInf, .negInf => true
  | .str a, .str b => a == b
  | .arr xs, .arr ys => jeqList xs ys
  | .obj fs, .obj gs => jeqFields fs gs
  | _, _ => false

def jeqList : List JValue → List JValue → Bool
  | [], [] => true
  | x :: xs, y :: ys => jeq x y && jeqList xs ys
  | _, _ => false

def jeqFields : List JField → List JField → Bool
  | [], [] => true
  | (k, v) :: fs, (l, w) :: gs => k == l && jeq v w && jeqFields fs gs
  | _, _ => false
end

/-- Strong induction over `JValue` reaching through the nested lists. -/
theorem JValue.strongInd (P : JValue → Prop)
    (hnull : P .null) (hbool : ∀ b, P (.bool b)) (hnum : ∀ n, P (.num n))
    (hnan : P .nan) (hinf : P .inf) (hneg : P .negInf)
    (hstr : ∀ s, P (.str s))
    (harr : ∀ xs, (∀ x ∈ xs, P x) → P (.arr xs))
    (hobj : ∀ fs, (∀ p ∈ fs, P p.2) → P (.obj fs)) : ∀ v, P v := by
  have key : ∀ n v, sizeOf v ≤ n → P v := by
    intro n
    induction n with
    | zero =>
      intro v hv
      cases v <;> simp at hv
    | succ n ih =>
      intro v hv
      cases v with
      | null => exact hnull
      | bool b => exact hbool b
      | num m => exact hnum m
      | nan => exact hnan
      | inf => exact hinf
      | negInf => exact hneg
      | str s => exact hstr s
      | arr xs =>
        refine harr xs (fun x hx => ih x ?_)
        have hlt := List.sizeOf_lt_of_mem hx
        simp at hv
        omega
      | obj fs =>
        refine hobj fs (fun p hp => ih p.2 ?_)
        have hlt := List.sizeOf_lt_of_mem hp
        obtain ⟨k, w⟩ := p
        simp at hv hlt ⊢
        omega
  exact fun v => key (sizeOf v) v le_rfl

/-- Boolean equality `jeq` decides propositional equality. -/
theorem jeq_iff : ∀ v w : JValue, jeq v w = true ↔ v = w := by
  intro v
  induction v using JValue.strongInd with
  | hnull => intro w; cases w <;> simp [jeq]
  | hbool b => intro w; cases w <;> simp [jeq]
  | hnum n => intro w; cases w <;> simp [jeq]
  | hnan => intro w; cases w <;> simp [jeq]
  | hinf => intro w; cases w <;> simp [jeq]
  | hneg => intro w; cases w <;> simp [jeq]
  | hstr s => intro w; cases w <;> simp [jeq]
  | harr xs ih =>
    intro w
    cases w <;> simp [jeq]
    rename_i ys
    induction xs generalizing ys with
    | nil => cases ys <;> simp [jeqList]
    | cons x xs ihl =>
      cases ys with
      | nil => simp [jeqList]
      | cons y ys =>
        simp [jeqList, ih x (by simp),
          ihl (fun a ha => ih a (by simp [ha])) ys]
  | hobj fs ih =>
    intro w
    cases w <;> simp [jeq]
    rename_i gs
    induction fs generalizing gs with
    | nil => cases gs <;> simp [jeqFields]
    | cons p fs ihl =>
      cases gs with
      | nil => obtain ⟨k, v⟩ := p; simp [jeqFields]
      | cons q gs =>
        obtain ⟨k, v⟩ := p
        obtain ⟨l, w⟩ := q
        simp [jeqFields, ih (k, v) (by simp),
          ihl (fun a ha => ih a (by simp [ha])) gs]
        try tauto

instance : DecidableEq JValue := fun a b =>
  decidable_of_iff _ (jeq_iff a b)

instance : Inhabited JValue := ⟨.null⟩

/-- Lexicographic (code-point) order on strings, as Python `sorted` uses. -/
def clLe : List Char → List Char → Bool
  | [], _ => true
  | x :: xs, y :: ys =>
    if x.toNat < y.toNat then true
    else if y.toNat < x.toNat then false
    else clLe xs ys
  | _ :: _, [] => false

/-- Insert one field into a key-sorted field list (stable insertion). -/
def insertField (p : JField) : List JField → List JField
  | [] => [p]
  | q :: qs => if clLe p.1 q.1 then p :: q :: qs else q :: insertField p qs

/-- Sort a field list by key, as `json.dumps(..., sort_keys=True)` does. -/
def sortFields : List JField → List JField
  | [] => []
  | p :: ps => insertField p (sortFields ps)

mutual
/-- Recursively key-sort every mapping in a value (the order in which
`sort_keys=True` emits fields at every nesting level). -/
def sortRec : JValue → JValue
  | .null => .null
  | .bool b => .bool b
  | .num n => .num n
  | .nan => .nan
  | .inf => .inf
  | .negInf => .negInf
  | .str s => .str s
  | .arr xs => .arr (sortRecList xs)
  | .obj fs => .obj (sortFields (sortRecFields fs))

def sortRecList : List JValue → List JValue
  | [] => []
  | x :: xs => sortRec x :: sortRecList xs

def sortRecFields : List JField → List JField
  | [] => []
  | (k, v) :: fs => (k, sortRec v) :: sortRecFields fs
end

example : sortRec (.obj [(['b'], .num 1), (['a'], .num 2)]) =
    .obj [(['a'], .num 2), (['b'], .num 1)] := by decide

/-! ## Decimal and hexadecimal digit rendering -/

/-- The decimal digit character for `n < 10`. -/
def digitChar (n : Nat) : Char := Char.ofNat (48 + n)

/-- Decimal digits of a natural number, most significant first
(Python `str` of a nonnegative int). -/
def natDigits (n : Nat) : List Char :=
  if _h : n < 10 then [digitChar n]
  else natDigits (n / 10) ++ [digitChar (n % 10)]
  decreasing_by exact Nat.div_lt_self (by omega) (by omega)

/-- Python `str` of an int: optional minus sign then decimal digits. -/
def intChars : Int → List Char
  | .ofNat n => natDigits n
  | .negSucc m => '-' :: natDigits (m + 1)

/-- Lowercase hex digit character for `n < 16` (as Python `"%04x"`). -/
def hexDigit (n : Nat) : Char :=
  if n < 10 then Char.ofNat (48 + n) else Char.ofNat (87 + n)

/-- Two lowercase hex digits of a byte value. -/
def hexPair (b : Nat) : List Char :=
  [hexDigit (b / 16 % 16), hexDigit (b % 16)]

/-- Four lowercase hex digits of `n < 0x10000`, as in a `\uXXXX` escape. -/
def hex4 (n : Nat) : List Char :=
  hexPair (n / 256) ++ hexPair (n % 256)

/-! ## String escaping (`json.encoder.py_encode_basestring_ascii`,
the `ensure_ascii=True` table used by `json.dumps` defaults) -/

/-- Escape one character the way `json.dumps` (default `ensure_ascii=True`)
does: the seven short escapes, `\uXXXX` for other controls and for
everything above `~`, and a UTF-16 surrogate pair for astral characters. -/
def escChar (c : Char) : List Char :=
  if c.toNat = 34 then ['\\', '"']
  else if c.toNat = 92 then ['\\', '\\']
  else if c.toNat = 10 then ['\\', 'n']
  else if c.toNat = 13 then ['\\', 'r']
  else if c.toNat = 9 then ['\\', 't']
  else if c.toNat = 8 then ['\\', 'b']
  else if c.toNat = 12 then ['\\', 'f']
  else if c.toNat < 0x20 then '\\' :: 'u' :: hex4 c.toNat
  else if c.toNat < 0x7f then [c]
  else if c.toNat < 0x10000 then '\\' :: 'u' :: hex4 c.toNat
  else '\\' :: 'u' :: hex4 (0xd800 + (c.toNat - 0x10000) / 0x400) ++
       '\\' :: 'u' :: hex4 (0xdc00 + (c.toNat - 0x10000) % 0x400)

/-- Escape a whole string. -/
def escStr : List Char → List Char
  | [] => []
  | c :: cs => escChar c ++ escStr cs

/-! ## The canonical serializer

`json.dumps(data, sort_keys=True)` with default separators `(', ', ': ')`
and `ensure_ascii=True`.  `serJ` serializes a value whose mappings are
already in emission (sorted) order; composing it with `sortRec` gives
exactly the text `json.dumps(..., sort_keys=True)` emits. -/

mutual
def serJ : JValue → List Char
  | .null => 'n' :: 'u' :: 'l' :: ['l']
  | .bool true => 't' :: 'r' :: 'u' :: ['e']
  | .bool false => 'f' :: 'a' :: 'l' :: 's' :: ['e']
  | .num n => intChars n
  | .nan => 'N' :: 'a' :: ['N']
  | .inf => 'I' :: 'n' :: 'f' :: 'i' :: 'n' :: 'i' :: 't' :: ['y']
  | .negInf => '-' :: 'I' :: 'n' :: 'f' :: 'i' :: 'n' :: 'i' :: 't' :: ['y']
  | .str s => '"' :: (escStr s ++ ['"'])
  | .arr xs => '[' :: (serItems xs ++ [']'])
  | .obj fs => '{' :: (serFields fs ++ ['}'])

def serItems : List JValue → List Char
  | [] => []
  | x :: xs => serJ x ++ serArrTail xs

def serArrTail : List JValue → List Char
  | [] => []
  | x :: xs => ',' :: ' ' :: (serJ x ++ serArrTail xs)

def serField : JField → List Char
  | (k, v) => '"' :: (escStr k ++ '"' :: ':' :: ' ' :: serJ v)

def serFields : List JField → List Char
  | [] => []
  | p :: ps => serField p ++ serObjTail ps

def serObjTail : List JField → List Char
  | [] => []
  | p :: ps => ',' :: ' ' :: (serField p ++ serObjTail ps)
end

/-- The canonical JSON text of a record:
`json.dumps(sentiment_data, sort_keys=True)`. -/
def canonicalJson (v : JValue) : List Char := serJ (sortRec v)

/-! ## UTF-8 encoding (`str.encode('utf-8')`) -/

/-- UTF-8 encoding of one Unicode scalar value. -/
def utf8Char (c : Char) : List Nat :=
  let n := c.toNat
  if n < 0x80 then [n]
  else if n < 0x800 then [0xc0 + n / 64, 0x80 + n % 64]
  else if n < 0x10000 then
    [0xe0 + n / 4096, 0x80 + n / 64 % 64, 0x80 + n % 64]
  else
    [0xf0 + n / 262144, 0x80 + n / 4096 % 64, 0x80 + n / 64 % 64,
     0x80 + n % 64]

/-- UTF-8 encoding of a string. -/
def utf8Bytes : List Char → List Nat
  | [] => []
  | c :: cs => utf8Char c ++ utf8Bytes cs

/-- The canonical bytes of a record:
`json.dumps(sentiment_data, sort_keys=True).encode('utf-8')`. -/
def canonicalBytes (v : JValue) : List Nat := utf8Bytes (canonicalJson v)

example : canonicalJson (.obj [(['b'], .bool true), (['a'], .null)]) =
    ('{' :: '"' :: 'a' :: '"' :: ':' :: ' ' :: 'n' :: 'u' :: 'l' :: 'l' ::
     ',' :: ' ' :: '"' :: 'b' :: '"' :: ':' :: ' ' :: 't' :: 'r' :: 'u' ::
     'e' :: ['}']) := by decide

/-! ## SHA-256 (`hashlib.sha256`) -/

/-- Reduce to a 32-bit word. -/
def wmask (x : Nat) : Nat := x % 4294967296

/-- Right-rotation of a 32-bit word. -/
def rotr (n x : Nat) : Nat := wmask ((x >>> n) ||| (x <<< (32 - n)))

def shaCh (x y z : Nat) : Nat := (x &&& y) ^^^ ((x ^^^ 4294967295) &&& z)

def shaMaj (x y z : Nat) : Nat := (x &&& y) ^^^ (x &&& z) ^^^ (y &&& z)

def bigSigma0 (x : Nat) : Nat := rotr 2 x ^^^ rotr 13 x ^^^ rotr 22 x

def bigSigma1 (x : Nat) : Nat := rotr 6 x ^^^ rotr 11 x ^^^ rotr 25 x

def smallSigma0 (x : Nat) : Nat := rotr 7 x ^^^ rotr 18 x ^^^ (x >>> 3)

def smallSigma1 (x : Nat) : Nat := rotr 17 x ^^^ rotr 19 x ^^^ (x >>> 10)

/-- The SHA-256 round constants (decimal). -/
def shaK : List Nat :=
  [1116352408, 1899447441, 3049323471,
   3921009573, 961987163, 1508970993,
   2453635748, 2870763221, 3624381080,
   310598401, 607225278, 1426881987,
   1925078388, 2162078206, 2614888103,
   3248222580, 3835390401, 4022224774,
   264347078, 604807628, 770255983,
   1249150122, 1555081692, 1996064986,
   2554220882, 2821834349, 2952996808,
   3210313671, 3336571891, 3584528711,
   113926993, 338241895, 666307205,
   773529912, 1294757372, 1396182291,
   1695183700, 1986661051, 2177026350,
   2456956037, 2730485921, 2820302411,
   3259730800, 3345764771, 3516065817,
   3600352804, 4094571909, 275423344,
   430227734, 506948616, 659060556,
   883997877, 958139571, 1322822218,
   1537002063, 1747873779, 1955562222,
   2024104815, 2227730452, 2361852424,
   2428436474, 2756734187, 3204031479,
   3329325298]

/-- The eight 32-bit words of the SHA-256 working state. -/
structure ShaState where
  w0 : Nat
  w1 : Nat
  w2 : Nat
  w3 : Nat
  w4 : Nat
  w5 : Nat
  w6 : Nat
  w7 : Nat

/-- The SHA-256 initial hash value. -/
def shaInit : ShaState :=
  ⟨1779033703, 3144134277, 1013904242,
   2773480762, 1359893119, 2600822924,
   528734635, 1541459225⟩

/-- One SHA-256 compression round with round constant and schedule word. -/
def shaStep (s : ShaState) (kw : Nat × Nat) : ShaState :=
  let t1 := wmask (s.w7 + bigSigma1 s.w4 + shaCh s.w4 s.w5 s.w6 + kw.1 + kw.2)
  let t2 := wmask (bigSigma0 s.w0 + shaMaj s.w0 s.w1 s.w2)
  ⟨wmask (t1 + t2), s.w0, s.w1, s.w2, wmask (s.w3 + t1), s.w4, s.w5, s.w6⟩

/-- Extend the 16 message words of a block to the 64 schedule words. -/
def extendSchedule (ws : List Nat) : List Nat :=
  if _h : 64 ≤ ws.length then ws
  else
    extendSchedule (ws ++
      [wmask (smallSigma1 (ws.getD (ws.length - 2) 0) +
              ws.getD (ws.length - 7) 0 +
              smallSigma0 (ws.getD (ws.length - 15) 0) +
              ws.getD (ws.length - 16) 0)])
  termination_by 64 - ws.length
  decreasing_by simp; omega

/-- Big-endian 32-bit words from a list of bytes. -/
def bytesToWords : List Nat → List Nat
  | b0 :: b1 :: b2 :: b3 :: rest =>
    (b0 * 16777216 + b1 * 65536 + b2 * 256 + b3) :: bytesToWords rest
  | _ => []

/-- Process one 64-byte block. -/
def shaBlock (s : ShaState) (block : List Nat) : ShaState :=
  let ws := extendSchedule (bytesToWords block)
  let t := (shaK.zip ws).foldl shaStep s
  ⟨wmask (s.w0 + t.w0), wmask (s.w1 + t.w1), wmask (s.w2 + t.w2),
   wmask (s.w3 + t.w3), wmask (s.w4 + t.w4), wmask (s.w5 + t.w5),
   wmask (s.w6 + t.w6), wmask (s.w7 + t.w7)⟩

/-- Big-endian 8-byte rendering of the message bit length. -/
def be64 (n : Nat) : List Nat :=
  [n / 72057594037927936 % 256, n / 281474976710656 % 256,
   n / 1099511627776 % 256, n / 4294967296 % 256,
   n / 16777216 % 256, n / 65536 % 256, n / 256 % 256, n % 256]

/-- SHA-256 message padding. -/
def shaPad (msg : List Nat) : List Nat :=
  msg ++ 128 :: List.replicate ((64 - (msg.length + 9) % 64) % 64) 0 ++
    be64 (8 * msg.length)

/-- Split a byte list into 64-byte blocks. -/
def chunk64 (bs : List Nat) : List (List Nat) :=
  if h : bs = [] then [] else bs.take 64 :: chunk64 (bs.drop 64)
  termination_by bs.length
  decreasing_by
    simp only [List.length_drop]
    have := List.length_pos.mpr h
    omega

/-- Big-endian bytes of one 32-bit word. -/
def wordBytes (w : Nat) : List Nat :=
  [w / 16777216 % 256, w / 65536 % 256, w / 256 % 256, w % 256]

/-- The 32 digest bytes of a final state. -/
def digestBytes (s : ShaState) : List Nat :=
  wordBytes s.w0 ++ wordBytes s.w1 ++ wordBytes s.w2 ++ wordBytes s.w3 ++
  wordBytes s.w4 ++ wordBytes s.w5 ++ wordBytes s.w6 ++ wordBytes s.w7

/-- SHA-256 of a byte string (`hashlib.sha256(...).digest()`). -/
def sha256 (msg : List Nat) : List Nat :=
  digestBytes ((chunk64 (shaPad msg)).foldl shaBlock shaInit)

/-- Lowercase hex rendering of a byte string
(`hashlib.sha256(...).hexdigest()`). -/
def bytesHexLower : List Nat → List Char
  | [] => []
  | b :: bs => hexDigit (b / 16) :: hexDigit (b % 16) :: bytesHexLower bs

/-! ## The Ed25519 library interface

The repository delegates all public-key cryptography to the external
`cryptography.hazmat.primitives.asymmetric.ed25519` module.  We model that
module by its interface: a signing function, a public-key derivation, and a
boolean verification outcome (`Ed25519PublicKey.verify` returning normally
or raising `InvalidSignature`), together with the properties the library
documents — derived public keys are 32 bytes, signatures are 64 bytes, a
signature of any other length is rejected, and a signature produced by
`sign` verifies under the corresponding public key. -/

structure Ed25519Lib where
  pubOf : List Nat → List Nat
  sign : List Nat → List Nat → List Nat
  verifyOk : List Nat → List Nat → List Nat → Bool
  pub_len : ∀ sk, (pubOf sk).length = 32
  sig_len : ∀ sk msg, (sign sk msg).length = 64
  verify_badlen : ∀ pk sig msg, sig.length ≠ 64 → verifyOk pk sig msg = false
  verify_sign : ∀ sk msg, verifyOk (pubOf sk) (sign sk msg) msg = true

/-- A concrete instance of the library interface, used to instantiate the
parametric theorems on closed inputs. -/
def edInstance : Ed25519Lib where
  pubOf _ := List.replicate 32 0
  sign _ msg := (msg ++ List.replicate 64 0).take 64
  verifyOk _ sig msg := sig == (msg ++ List.replicate 64 0).take 64
  pub_len _ := by simp
  sig_len sk msg := by simp
  verify_badlen pk sig msg h := by
    simp only [beq_eq_false_iff_ne, ne_eq]
    intro he
    apply h
    rw [he]
    simp
  verify_sign sk msg := by simp

/-- The Python exceptions the oracle-publisher scripts can raise. -/
inductive PyErr where
  | fileNotFound : PyErr
  | jsonDecode : PyErr
  | keyError : PyErr
  | typeError : PyErr
  | binasciiError : PyErr
  | valueError : PyErr
  deriving DecidableEq

/-- What a script finds at a file path: no file, a file that is not valid
JSON, or a file whose JSON text parses to a value (files are modelled at
the level of the value their text parses to). -/
inductive FileContent where
  | missing : FileContent
  | invalidJson : FileContent
  | json (j : JValue) : FileContent

/-! ## Base64 (`base64.b64encode` / `base64.b64decode`) -/

/-- Character `i` of the standard base64 alphabet (`i < 64`). -/
def b64Char (i : Nat) : Char :=
  if i < 26 then Char.ofNat (65 + i)
  else if i < 52 then Char.ofNat (97 + (i - 26))
  else if i < 62 then Char.ofNat (48 + (i - 52))
  else if i = 62 then '+'
  else '/'

/-- The index of a standard-alphabet base64 character. -/
def b64Index (c : Char) : Option Nat :=
  if 65 ≤ c.toNat ∧ c.toNat ≤ 90 then some (c.toNat - 65)
  else if 97 ≤ c.toNat ∧ c.toNat ≤ 122 then some (26 + (c.toNat - 97))
  else if 48 ≤ c.toNat ∧ c.toNat ≤ 57 then some (52 + (c.toNat - 48))
  else if c = '+' then some 62
  else if c = '/' then some 63
  else none

/-- Standard `base64.b64encode` over raw bytes, producing the padded text. -/
def b64Encode : List Nat → List Char
  | [] => []
  | [b] =>
    [b64Char (b / 4), b64Char (b % 4 * 16), '=', '=']
  | [b, c] =>
    [b64Char (b / 4), b64Char (b % 4 * 16 + c / 16), b64Char (c % 16 * 4), '=']
  | b :: c :: d :: rest =>
    b64Char (b / 4) :: b64Char (b % 4 * 16 + c / 16) ::
    b64Char (c % 16 * 4 + d / 64) :: b64Char (d % 64) :: b64Encode rest

/-- Decode base64 quads (input already filtered to alphabet / `=`).
`base64.b64decode` raises `binascii.Error` on incorrect padding. -/
def b64Quads : List Char → Except PyErr (List Nat)
  | [] => .ok []
  | c0 :: c1 :: c2 :: c3 :: rest =>
    match b64Index c0, b64Index c1 with
    | some i0, some i1 =>
      if c2 = '=' then
        if c3 = '=' ∧ rest = [] then .ok [i0 * 4 + i1 / 16]
        else .error .binasciiError
      else
        match b64Index c2 with
        | some i2 =>
          if c3 = '=' then
            if rest = [] then
              .ok [i0 * 4 + i1 / 16, i1 % 16 * 16 + i2 / 4]
            else .error .binasciiError
          else
            match b64Index c3 with
            | some i3 =>
              (b64Quads rest).map
                (fun bs => (i0 * 4 + i1 / 16) :: (i1 % 16 * 16 + i2 / 4) ::
                           (i2 % 4 * 64 + i3) :: bs)
            | none => .error .binasciiError
        | none => .error .binasciiError
    | _, _ => .error .binasciiError
  | _ => .error .binasciiError

/-- Standard `base64.b64decode` (default non-validating mode): characters outside
the alphabet and padding are discarded, then the quads are decoded. -/
def b64Decode (cs : List Char) : Except PyErr (List Nat) :=
  b64Quads (cs.filter (fun c => (b64Index c).isSome || c = '='))

example : b64Encode [1, 2, 3, 4, 5] = ['A', 'Q', 'I', 'D', 'B', 'A', 'U', '='] := by
  decide

example : b64Decode ['A', 'Q', 'I', 'D', 'B', 'A', 'U', '='] = .ok [1, 2, 3, 4, 5] := rfl

/-! ## Shared dictionary access -/

/-- First value stored under a key (Python dict lookup; parsed JSON objects
have distinct keys). -/
def lookupField (k : List Char) : List JField → Option JValue
  | [] => none
  | (l, v) :: fs => if l = k then some v else lookupField k fs

/-- Python subscript `j[k]`: `KeyError` if the key is absent, `TypeError`
if `j` is not a dict. -/
def jGet (j : JValue) (k : List Char) : Except PyErr JValue :=
  match j with
  | .obj fs =>
    match lookupField k fs with
    | some v => .ok v
    | none => .error .keyError
  | _ => .error .typeError

/-- Python `base64.b64decode` applied to a JSON value raises `TypeError` unless the
value is a string. -/
def asStr : JValue → Except PyErr (List Char)
  | .str s => .ok s
  | _ => .error .typeError

def privateKeyKey : List Char :=
  ['p', 'r', 'i', 'v', 'a', 't', 'e', '_', 'k', 'e', 'y']

def publicKeyKey : List Char :=
  ['p', 'u', 'b', 'l', 'i', 'c', '_', 'k', 'e', 'y']

def signatureKey : List Char :=
  ['s', 'i', 'g', 'n', 'a', 't', 'u', 'r', 'e']

def dataKey : List Char := ['d', 'a', 't', 'a']

/-- A raw keypair, as the dict `demo.generate_keypair` returns. -/
structure Keypair where
  private_key : List Nat
  public_key : List Nat
  deriving DecidableEq

/-! ## `oracle-publisher/demo.py` -/

namespace Demo

/-- In `generate_keypair` the library draws the raw 32-byte private key from
the CSPRNG (the `entropy` argument here) and derives the raw public key. -/
def generate_keypair (E : Ed25519Lib) (entropy : List Nat) : Keypair :=
  { private_key := entropy, public_key := E.pubOf entropy }

/-- In `save_keypair` both keys are base64 encoded into a JSON object. -/
def save_keypair (keypair : Keypair) : FileContent :=
  .json (.obj [(privateKeyKey, .str (b64Encode keypair.private_key)),
               (publicKeyKey, .str (b64Encode keypair.public_key))])

/-- In `load_keypair` the JSON file is read and both fields base64-decoded.
No length validation of any kind is performed. -/
def load_keypair (file : FileContent) : Except PyErr Keypair :=
  match file with
  | .missing => .error .fileNotFound
  | .invalidJson => .error .jsonDecode
  | .json j => do
    let ePriv ← jGet j privateKeyKey
    let sPriv ← asStr ePriv
    let sk ← b64Decode sPriv
    let ePub ← jGet j publicKeyKey
    let sPub ← asStr ePub
    let pk ← b64Decode sPub
    .ok { private_key := sk, public_key := pk }

/-- Source `hash_sentiment_data`:
`sha256(json.dumps(sentiment_data, sort_keys=True).encode('utf-8')).digest()`. -/
def hash_sentiment_data (sentiment_data : JValue) : List Nat :=
  sha256 (canonicalBytes sentiment_data)

/-- In `sign_data`, `Ed25519PrivateKey.from_private_bytes` raises `ValueError`
unless the key is exactly 32 bytes; then the digest is signed. -/
def sign_data (E : Ed25519Lib) (data_hash private_key_bytes : List Nat) :
    Except PyErr (List Nat) :=
  if private_key_bytes.length = 32 then .ok (E.sign private_key_bytes data_hash)
  else .error .valueError

/-- In `verify_signature`, `Ed25519PublicKey.from_public_bytes` is called
*outside* the `try` block and raises `ValueError` unless the key is exactly
32 bytes; inside the `try`, `verify` returning normally yields `True` and
any exception yields `False`. -/
def verify_signature (E : Ed25519Lib)
    (data_hash signature public_key_bytes : List Nat) : Except PyErr Bool :=
  if public_key_bytes.length = 32 then
    .ok (E.verifyOk public_key_bytes signature data_hash)
  else .error .valueError

/-- In `save_signed_data`: the envelope JSON object, record verbatim,
signature and public key base64 encoded. -/
def save_signed_data (sentiment_data : JValue) (signature public_key : List Nat) :
    FileContent :=
  .json (.obj [(dataKey, sentiment_data),
               (signatureKey, .str (b64Encode signature)),
               (publicKeyKey, .str (b64Encode public_key))])

/-- The loading half of `verify_signed_data` (demo.py lines 122-128): read
the envelope file and decode its three components. -/
def read_signed_data (file : FileContent) :
    Except PyErr (JValue × List Nat × List Nat) :=
  match file with
  | .missing => .error .fileNotFound
  | .invalidJson => .error .jsonDecode
  | .json j => do
    let sentiment_data ← jGet j dataKey
    let eSig ← jGet j signatureKey
    let sSig ← asStr eSig
    let signature ← b64Decode sSig
    let ePub ← jGet j publicKeyKey
    let sPub ← asStr ePub
    let public_key ← b64Decode sPub
    .ok (sentiment_data, signature, public_key)

/-- In `verify_signed_data`: load the envelope, extract the three components,
recompute the digest of the embedded record, verify.  Only the boolean
verdict is returned. -/
def verify_signed_data (E : Ed25519Lib) (file : FileContent) :
    Except PyErr Bool := do
  let (sentiment_data, signature, public_key) ← read_signed_data file
  let data_hash := hash_sentiment_data sentiment_data
  verify_signature E data_hash signature public_key

end Demo

/-! ## `oracle-publisher/verify_tampering.py` -/

namespace Tamper

/-- Source `hash_sentiment_data` (identical pipeline to the one in `demo.py`). -/
def hash_sentiment_data (sentiment_data : JValue) : List Nat :=
  sha256 (canonicalBytes sentiment_data)

/-- In `verify_signed_data`: same extraction as in `demo.py`, with the
verification inlined: `from_public_bytes` (raises on a wrong-length key)
followed by a `try`ed `verify`. -/
def verify_signed_data (E : Ed25519Lib) (file : FileContent) :
    Except PyErr Bool :=
  match file with
  | .missing => .error .fileNotFound
  | .invalidJson => .error .jsonDecode
  | .json j => do
    let sentiment_data ← jGet j dataKey
    let eSig ← jGet j signatureKey
    let sSig ← asStr eSig
    let signature ← b64Decode sSig
    let ePub ← jGet j publicKeyKey
    let sPub ← asStr ePub
    let public_key ← b64Decode sPub
    let data_hash := hash_sentiment_data sentiment_data
    if public_key.length = 32 then
      .ok (E.verifyOk public_key signature data_hash)
    else .error .valueError

end Tamper

/-! ## `oracle-publisher/compare_hashes.py` -/

namespace Compare

/-- Source `hash_data`:
`sha256(json.dumps(data, sort_keys=True).encode('utf-8')).hexdigest()`. -/
def hash_data (data : JValue) : List Char :=
  bytesHexLower (sha256 (canonicalBytes data))

/-- The change-detection loop of `main` (lines 55-58): iterate the keys of
the *original* record in insertion order, subscript the tampered record
with each key (`KeyError` when absent), and collect the fields whose
values differ. -/
def diffFields (orig tamp : List JField) :
    Except PyErr (List (List Char × JValue × JValue)) :=
  match orig with
  | [] => .ok []
  | (k, v) :: rest =>
    match lookupField k tamp with
    | none => .error .keyError
    | some w =>
      if v = w then diffFields rest tamp
      else (diffFields rest tamp).map (fun l => (k, v, w) :: l)

end Compare

/-! ## Record well-formedness and key-order permutation -/

/-- No key occurs twice (parsed JSON objects / Python dicts). -/
def noDupKeys : List JField → Bool
  | [] => true
  | (k, _) :: fs => !(lookupField k fs).isSome && noDupKeys fs

mutual
/-- Every mapping in the value has pairwise distinct keys. -/
def wfB : JValue → Bool
  | .null => true
  | .bool _ => true
  | .num _ => true
  | .nan => true
  | .inf => true
  | .negInf => true
  | .str _ => true
  | .arr xs => wfBList xs
  | .obj fs => noDupKeys fs && wfBFields fs

def wfBList : List JValue → Bool
  | [] => true
  | x :: xs => wfB x && wfBList xs

def wfBFields : List JField → Bool
  | [] => true
  | (_, v) :: fs => wfB v && wfBFields fs
end

mutual
/-- Relation `KeyPerm v w`: `v` and `w` are field-for-field equal records — equal up
to a permutation of the key insertion order at any nesting level. -/
inductive KeyPerm : JValue → JValue → Prop where
  | null : KeyPerm .null .null
  | bool (b : Bool) : KeyPerm (.bool b) (.bool b)
  | num (n : Int) : KeyPerm (.num n) (.num n)
  | nan : KeyPerm .nan .nan
  | inf : KeyPerm .inf .inf
  | negInf : KeyPerm .negInf .negInf
  | str (s : List Char) : KeyPerm (.str s) (.str s)
  | arr {xs ys : List JValue} :
      KeyPermItems xs ys → KeyPerm (.arr xs) (.arr ys)
  | obj {fs gs hs : List JField} :
      KeyPermFields fs gs → gs.Perm hs → KeyPerm (.obj fs) (.obj hs)

/-- Pointwise `KeyPerm` on sequences. -/
inductive KeyPermItems : List JValue → List JValue → Prop where
  | nil : KeyPermItems [] []
  | cons {x y : JValue} {xs ys : List JValue} :
      KeyPerm x y → KeyPermItems xs ys → KeyPermItems (x :: xs) (y :: ys)

/-- Pointwise key-preserving `KeyPerm` on field lists. -/
inductive KeyPermFields : List JField → List JField → Prop where
  | nil : KeyPermFields [] []
  | cons {k : List Char} {v w : JValue} {fs gs : List JField} :
      KeyPerm v w → KeyPermFields fs gs →
      KeyPermFields ((k, v) :: fs) ((k, w) :: gs)
end

/-! ## Order lemmas for key sorting -/

theorem charToNat_inj {a b : Char} (h : a.toNat = b.toNat) : a = b := by
  apply Char.ext
  apply UInt32.eq_of_toBitVec_eq
  apply BitVec.toNat_injective
  simpa [Char.toNat] using h

theorem clLe_refl : ∀ a, clLe a a = true := by
  intro a
  induction a with
  | nil => rfl
  | cons x xs ih => simp [clLe, ih]

theorem clLe_total : ∀ a b, clLe a b = true ∨ clLe b a = true := by
  intro a
  induction a with
  | nil => intro b; left; rfl
  | cons x xs ih =>
    intro b
    cases b with
    | nil => right; rfl
    | cons y ys =>
      simp only [clLe]
      rcases Nat.lt_trichotomy x.toNat y.toNat with h | h | h
      · left; simp [h]
      · have hxy : x = y := charToNat_inj h
        subst hxy
        simp only [Nat.lt_irrefl, if_false]
        exact ih ys
      · right; simp [h]

theorem clLe_trans : ∀ a b c, clLe a b = true → clLe b c = true →
    clLe a c = true := by
  intro a
  induction a with
  | nil => intro b c _ _; rfl
  | cons x xs ih =>
    intro b c hab hbc
    cases b with
    | nil => simp [clLe] at hab
    | cons y ys =>
      cases c with
      | nil => simp [clLe] at hbc
      | cons z zs =>
        simp only [clLe] at hab hbc ⊢
        by_cases h1 : x.toNat < y.toNat
        · by_cases h2 : y.toNat < z.toNat
          · rw [if_pos (by omega)]
          · by_cases h3 : z.toNat < y.toNat
            · rw [if_neg h2, if_pos h3] at hbc
              exact absurd hbc (by simp)
            · rw [if_pos (by omega)]
        · by_cases h1' : y.toNat < x.toNat
          · rw [if_neg h1, if_pos h1'] at hab
            exact absurd hab (by simp)
          · rw [if_neg h1, if_neg h1'] at hab
            by_cases h2 : y.toNat < z.toNat
            · rw [if_pos (by omega)]
            · by_cases h3 : z.toNat < y.toNat
              · rw [if_neg h2, if_pos h3] at hbc
                exact absurd hbc (by simp)
              · rw [if_neg h2, if_neg h3] at hbc
                rw [if_neg (by omega), if_neg (by omega)]
                exact ih ys zs hab hbc

theorem clLe_antisymm : ∀ a b, clLe a b = true → clLe b a = true →
    a = b := by
  intro a
  induction a with
  | nil =>
    intro b _ hba
    cases b with
    | nil => rfl
    | cons y ys => simp [clLe] at hba
  | cons x xs ih =>
    intro b hab hba
    cases b with
    | nil => simp [clLe] at hab
    | cons y ys =>
      simp only [clLe] at hab hba
      rcases Nat.lt_trichotomy x.toNat y.toNat with h | h | h
      · simp [h, Nat.lt_asymm h] at hba
      · have hxy : x = y := charToNat_inj h
        subst hxy
        simp [Nat.lt_irrefl] at hab hba
        rw [ih ys hab hba]
      · simp [h, Nat.lt_asymm h] at hab

/-- The key order used by `sorted()` on the field pairs. -/
def keyLe (p q : JField) : Prop := clLe p.1 q.1 = true

theorem insertField_perm (p : JField) :
    ∀ l : List JField, (insertField p l).Perm (p :: l) := by
  intro l
  induction l with
  | nil => simp [insertField]
  | cons q qs ih =>
    simp only [insertField]
    by_cases h : clLe p.1 q.1 = true
    · simp [h]
    · simp only [h, if_false]
      exact (ih.cons q).trans (List.Perm.swap p q qs)

theorem sortFields_perm : ∀ l : List JField, (sortFields l).Perm l := by
  intro l
  induction l with
  | nil => simp [sortFields]
  | cons p ps ih =>
    exact (insertField_perm p (sortFields ps)).trans (ih.cons p)

theorem insertField_sorted (p : JField) :
    ∀ l : List JField, l.Pairwise keyLe →
      (insertField p l).Pairwise keyLe := by
  intro l
  induction l with
  | nil => intro _; simp [insertField, List.Pairwise]
  | cons q qs ih =>
    intro h
    rw [List.pairwise_cons] at h
    simp only [insertField]
    by_cases hle : clLe p.1 q.1 = true
    · rw [if_pos hle]
      rw [List.pairwise_cons]
      constructor
      · intro r hr
        rcases List.mem_cons.mp hr with rfl | hr
        · exact hle
        · exact clLe_trans _ _ _ hle (h.1 r hr)
      · rw [List.pairwise_cons]
        exact h
    · rw [if_neg hle]
      rw [List.pairwise_cons]
      constructor
      · intro r hr
        have := (insertField_perm p qs).mem_iff.mp hr
        rcases List.mem_cons.mp this with rfl | hr'
        · rcases clLe_total r.1 q.1 with h' | h'
          · exact absurd h' hle
          · exact h'
        · exact h.1 r hr'
      · exact ih h.2

theorem sortFields_sorted : ∀ l : List JField,
    (sortFields l).Pairwise keyLe := by
  intro l
  induction l with
  | nil => simp [sortFields]
  | cons p ps ih => exact insertField_sorted p (sortFields ps) ih

/-- Two key-sorted field lists that are permutations of each other and have
pairwise distinct keys are equal. -/
theorem sortedPermEq : ∀ l1 l2 : List JField,
    l1.Pairwise keyLe → l2.Pairwise keyLe → l1.Perm l2 →
    (l1.map Prod.fst).Nodup → l1 = l2 := by
  intro l1
  induction l1 with
  | nil =>
    intro l2 _ _ hperm _
    exact (List.Perm.nil_eq hperm).symm ▸ rfl
  | cons p t1 ih =>
    intro l2 h1 h2 hperm hnd
    cases l2 with
    | nil => exact absurd hperm.symm (by simp)
    | cons q t2 =>
      have hpq : p = q := by
        by_contra hne
        have hpmem : p ∈ q :: t2 := hperm.mem_iff.mp (by simp)
        have hqmem : q ∈ p :: t1 := hperm.mem_iff.mpr (by simp)
        have hp2 : p ∈ t2 := by
          rcases List.mem_cons.mp hpmem with h | h
          · exact absurd h hne
          · exact h
        have hq1 : q ∈ t1 := by
          rcases List.mem_cons.mp hqmem with h | h
          · exact absurd h.symm hne
          · exact h
        have hle1 : keyLe p q := (List.pairwise_cons.mp h1).1 q hq1
        have hle2 : keyLe q p := (List.pairwise_cons.mp h2).1 p hp2
        have hkeys : p.1 = q.1 := clLe_antisymm _ _ hle1 hle2
        have : p.1 ∈ t1.map Prod.fst := by
          rw [hkeys]
          exact List.mem_map_of_mem Prod.fst hq1
        rw [List.map_cons, List.nodup_cons] at hnd
        exact hnd.1 this
      subst hpq
      have htperm : t1.Perm t2 := hperm.cons_inv
      have := ih t2 (List.pairwise_cons.mp h1).2 (List.pairwise_cons.mp h2).2
        htperm (by rw [List.map_cons, List.nodup_cons] at hnd; exact hnd.2)
      rw [this]

/-! ## Key-order permutations and `sortRec` -/

theorem sortRecFields_eq_map : ∀ l : List JField,
    sortRecFields l = l.map (fun p => (p.1, sortRec p.2)) := by
  intro l
  induction l with
  | nil => rfl
  | cons p ps ih =>
    obtain ⟨k, v⟩ := p
    simp [sortRecFields, ih]

theorem lookup_isSome_iff : ∀ (fs : List JField) (k : List Char),
    (lookupField k fs).isSome = true ↔ k ∈ fs.map Prod.fst := by
  intro fs k
  induction fs with
  | nil => simp [lookupField]
  | cons p ps ih =>
    obtain ⟨l, v⟩ := p
    by_cases h : l = k
    · subst h
      simp [lookupField]
    · simp only [lookupField]
      rw [if_neg h, ih]
      simp only [List.map_cons, List.mem_cons]
      constructor
      · intro hm
        exact Or.inr hm
      · intro hm
        rcases hm with he | hm
        · exact absurd he.symm h
        · exact hm

theorem noDupKeys_nodup : ∀ fs : List JField,
    noDupKeys fs = true → (fs.map Prod.fst).Nodup := by
  intro fs
  induction fs with
  | nil => intro _; simp
  | cons p ps ih =>
    obtain ⟨k, v⟩ := p
    intro h
    simp only [noDupKeys, Bool.and_eq_true, Bool.not_eq_true'] at h
    rw [List.map_cons, List.nodup_cons]
    constructor
    · intro hmem
      have := (lookup_isSome_iff ps k).mpr hmem
      rw [h.1] at this
      exact Bool.false_ne_true this
    · exact ih h.2

theorem wfBList_mem : ∀ xs : List JValue, wfBList xs = true →
    ∀ x ∈ xs, wfB x = true := by
  intro xs
  induction xs with
  | nil => intro _ x hx; simp at hx
  | cons y ys ih =>
    intro h x hx
    simp only [wfBList, Bool.and_eq_true] at h
    rcases List.mem_cons.mp hx with rfl | hx
    · exact h.1
    · exact ih h.2 x hx

theorem wfBFields_mem : ∀ fs : List JField, wfBFields fs = true →
    ∀ p ∈ fs, wfB p.2 = true := by
  intro fs
  induction fs with
  | nil => intro _ p hp; simp at hp
  | cons q qs ih =>
    obtain ⟨k, v⟩ := q
    intro h p hp
    simp only [wfBFields, Bool.and_eq_true] at h
    rcases List.mem_cons.mp hp with rfl | hp
    · exact h.1
    · exact ih h.2 p hp

/-- Sorting `sortRec` maps field-for-field-equal well-formed values to the same
canonical tree. -/
theorem keyPerm_sortRec : ∀ v w, KeyPerm v w → wfB v = true →
    sortRec v = sortRec w := by
  have items : ∀ xs ys, KeyPermItems xs ys →
      (∀ x ∈ xs, ∀ w, KeyPerm x w → wfB x = true → sortRec x = sortRec w) →
      wfBList xs = true → sortRecList xs = sortRecList ys := by
    intro xs
    induction xs with
    | nil => intro ys h _ _; cases h; rfl
    | cons x xs ihl =>
      intro ys h ihx hwf
      cases h with
      | cons hxy hrest =>
        simp only [wfBList, Bool.and_eq_true] at hwf
        simp only [sortRecList]
        rw [ihx x (by simp) _ hxy hwf.1,
          ihl _ hrest (fun a ha => ihx a (by simp [ha])) hwf.2]
  have fields : ∀ fs gs, KeyPermFields fs gs →
      (∀ p ∈ fs, ∀ w, KeyPerm p.2 w → wfB p.2 = true → sortRec p.2 = sortRec w) →
      wfBFields fs = true → sortRecFields fs = sortRecFields gs := by
    intro fs
    induction fs with
    | nil => intro gs h _ _; cases h; rfl
    | cons p ps ihl =>
      obtain ⟨k, v⟩ := p
      intro gs h ihp hwf
      cases h with
      | cons hvw hrest =>
        rename_i w gs'
        simp only [wfBFields, Bool.and_eq_true] at hwf
        simp only [sortRecFields]
        rw [ihp (k, v) (by simp) _ hvw hwf.1,
          ihl _ hrest (fun a ha => ihp a (by simp [ha])) hwf.2]
  intro v
  induction v using JValue.strongInd with
  | hnull => intro w h _; cases h; rfl
  | hbool b => intro w h _; cases h; rfl
  | hnum n => intro w h _; cases h; rfl
  | hnan => intro w h _; cases h; rfl
  | hinf => intro w h _; cases h; rfl
  | hneg => intro w h _; cases h; rfl
  | hstr s => intro w h _; cases h; rfl
  | harr xs ih =>
    intro w h hwf
    cases h with
    | arr hxs =>
      simp only [sortRec]
      rw [items _ _ hxs ih (by simpa [wfB] using hwf)]
  | hobj fs ih =>
    intro w h hwf
    cases h with
    | obj hfg hperm =>
      rename_i gs hs
      simp only [wfB, Bool.and_eq_true] at hwf
      simp only [sortRec]
      have h1 : sortRecFields fs = sortRecFields gs :=
        fields _ _ hfg ih hwf.2
      have h2 : (sortRecFields gs).Perm (sortRecFields hs) := by
        rw [sortRecFields_eq_map, sortRecFields_eq_map]
        exact hperm.map _
      have hkeys : ((sortRecFields fs).map Prod.fst).Nodup := by
        rw [sortRecFields_eq_map, List.map_map]
        exact noDupKeys_nodup fs hwf.1
      congr 1
      apply sortedPermEq
      · exact sortFields_sorted _
      · exact sortFields_sorted _
      · exact (sortFields_perm _).trans
          ((h1 ▸ h2).trans (sortFields_perm _).symm)
      · have := (sortFields_perm (sortRecFields fs)).map Prod.fst
        exact this.nodup_iff.mpr hkeys

/-! ## Injectivity of the canonical serializer: digit and escape lemmas -/

theorem char_valid_nat (c : Char) :
    c.toNat < 55296 ∨ (57343 < c.toNat ∧ c.toNat < 1114112) := by
  have h := c.valid
  unfold Nat.isValidChar at h
  rcases h with h | h
  · left; exact h
  · right; exact h

theorem digitChar_toNat : ∀ n, n < 10 → (digitChar n).toNat = 48 + n := by
  decide

theorem natDigits_digits : ∀ n, ∀ c ∈ natDigits n,
    48 ≤ c.toNat ∧ c.toNat ≤ 57 := by
  intro n
  induction n using Nat.strong_induction_on with
  | _ n ih =>
    intro c hc
    rw [natDigits] at hc
    by_cases h : n < 10
    · rw [dif_pos h] at hc
      simp at hc
      subst hc
      rw [digitChar_toNat n h]
      omega
    · rw [dif_neg h] at hc
      rcases List.mem_append.mp hc with hm | hm
      · exact ih (n / 10) (Nat.div_lt_self (by omega) (by omega)) c hm
      · simp at hm
        subst hm
        rw [digitChar_toNat (n % 10) (Nat.mod_lt n (by omega))]
        omega

theorem natDigits_ne_nil : ∀ n, natDigits n ≠ [] := by
  intro n
  rw [natDigits]
  by_cases h : n < 10
  · rw [dif_pos h]; simp
  · rw [dif_neg h]; simp

theorem natDigits_cons : ∀ n, ∃ c t, natDigits n = c :: t ∧
    48 ≤ c.toNat ∧ c.toNat ≤ 57 := by
  intro n
  cases he : natDigits n with
  | nil => exact absurd he (natDigits_ne_nil n)
  | cons c t =>
    refine ⟨c, t, rfl, ?_⟩
    have := natDigits_digits n c (by rw [he]; simp)
    exact this

/-- Valuation inverting decimal rendering. -/
def digitsVal (l : List Char) : Nat :=
  l.foldl (fun a c => a * 10 + (c.toNat - 48)) 0

theorem digitsVal_natDigits : ∀ n, digitsVal (natDigits n) = n := by
  intro n
  induction n using Nat.strong_induction_on with
  | _ n ih =>
    rw [natDigits]
    by_cases h : n < 10
    · rw [dif_pos h]
      simp [digitsVal, digitChar_toNat n h]
    · rw [dif_neg h]
      unfold digitsVal
      rw [List.foldl_append]
      have hrec := ih (n / 10) (Nat.div_lt_self (by omega) (by omega))
      unfold digitsVal at hrec
      rw [hrec]
      simp [digitChar_toNat (n % 10) (Nat.mod_lt n (by omega))]
      omega

theorem natDigits_inj : ∀ m n, natDigits m = natDigits n → m = n := by
  intro m n h
  rw [← digitsVal_natDigits m, ← digitsVal_natDigits n, h]

theorem hexDigit_inj : ∀ a, a < 16 → ∀ b, b < 16 →
    hexDigit a = hexDigit b → a = b := by
  decide

theorem hex4_inj : ∀ m, m < 65536 → ∀ n, n < 65536 →
    hex4 m = hex4 n → m = n := by
  intro m hm n hn h
  simp only [hex4, hexPair, List.cons_append, List.nil_append,
    List.cons.injEq, and_true] at h
  obtain ⟨h1, h2, h3, h4⟩ := h
  have e1 := hexDigit_inj _ (Nat.mod_lt _ (by omega)) _
    (Nat.mod_lt _ (by omega)) h1
  have e2 := hexDigit_inj _ (Nat.mod_lt _ (by omega)) _
    (Nat.mod_lt _ (by omega)) h2
  have e3 := hexDigit_inj _ (Nat.mod_lt _ (by omega)) _
    (Nat.mod_lt _ (by omega)) h3
  have e4 := hexDigit_inj _ (Nat.mod_lt _ (by omega)) _
    (Nat.mod_lt _ (by omega)) h4
  omega

/-- The inverse short-escape table: which character a two-character escape
sequence `\e` denotes. -/
def escMap (e : Char) : Option Char :=
  if e.toNat = 34 then some '"'
  else if e.toNat = 92 then some '\\'
  else if e.toNat = 110 then some '\n'
  else if e.toNat = 114 then some '\r'
  else if e.toNat = 116 then some '\t'
  else if e.toNat = 98 then some (Char.ofNat 8)
  else if e.toNat = 102 then some (Char.ofNat 12)
  else none

/-- Complete shape classification of `escChar`. -/
theorem escChar_shape (c : Char) :
    (escChar c = [c] ∧ 32 ≤ c.toNat ∧ c.toNat < 127 ∧ c ≠ '"' ∧ c ≠ '\\') ∨
    (∃ e, escChar c = ['\\', e] ∧ escMap e = some c) ∨
    (escChar c = '\\' :: 'u' :: hex4 c.toNat ∧ c.toNat < 65536 ∧
      (c.toNat < 55296 ∨ 57343 < c.toNat)) ∨
    (escChar c = '\\' :: 'u' :: hex4 (55296 + (c.toNat - 65536) / 1024) ++
        '\\' :: 'u' :: hex4 (56320 + (c.toNat - 65536) % 1024) ∧
      65536 ≤ c.toNat ∧ c.toNat < 1114112) := by
  have hval := char_valid_nat c
  unfold escChar
  by_cases h1 : c.toNat = 34
  · rw [if_pos h1]
    right; left
    refine ⟨'"', rfl, ?_⟩
    rw [charToNat_inj (a := c) (b := '"') (by rw [h1]; rfl)]
    rfl
  rw [if_neg h1]
  by_cases h2 : c.toNat = 92
  · rw [if_pos h2]
    right; left
    refine ⟨'\\', rfl, ?_⟩
    rw [charToNat_inj (a := c) (b := '\\') (by rw [h2]; rfl)]
    rfl
  rw [if_neg h2]
  by_cases h3 : c.toNat = 10
  · rw [if_pos h3]
    right; left
    refine ⟨'n', rfl, ?_⟩
    rw [charToNat_inj (a := c) (b := '\n') (by rw [h3]; rfl)]
    rfl
  rw [if_neg h3]
  by_cases h4 : c.toNat = 13
  · rw [if_pos h4]
    right; left
    refine ⟨'r', rfl, ?_⟩
    rw [charToNat_inj (a := c) (b := '\x0d') (by rw [h4]; rfl)]
    rfl
  rw [if_neg h4]
  by_cases h5 : c.toNat = 9
  · rw [if_pos h5]
    right; left
    refine ⟨'t', rfl, ?_⟩
    rw [charToNat_inj (a := c) (b := '\t') (by rw [h5]; rfl)]
    rfl
  rw [if_neg h5]
  by_cases h6 : c.toNat = 8
  · rw [if_pos h6]
    right; left
    refine ⟨'b', rfl, ?_⟩
    rw [charToNat_inj (a := c) (b := Char.ofNat 8) (by rw [h6]; rfl)]
    rfl
  rw [if_neg h6]
  by_cases h7 : c.toNat = 12
  · rw [if_pos h7]
    right; left
    refine ⟨'f', rfl, ?_⟩
    rw [charToNat_inj (a := c) (b := Char.ofNat 12) (by rw [h7]; rfl)]
    rfl
  rw [if_neg h7]
  by_cases h8 : c.toNat < 32
  · rw [if_pos h8]
    right; right; left
    exact ⟨rfl, by omega, by omega⟩
  rw [if_neg h8]
  by_cases h9 : c.toNat < 127
  · rw [if_pos h9]
    left
    refine ⟨rfl, by omega, by omega, ?_, ?_⟩
    · intro he
      rw [he] at h1
      exact h1 rfl
    · intro he
      rw [he] at h2
      exact h2 rfl
  rw [if_neg h9]
  by_cases h10 : c.toNat < 65536
  · rw [if_pos h10]
    right; right; left
    exact ⟨rfl, by omega, by omega⟩
  · rw [if_neg h10]
    right; right; right
    exact ⟨rfl, by omega, by omega⟩

theorem hex4_len : ∀ n, (hex4 n).length = 4 := by
  intro n
  rfl

theorem escMap_u : escMap 'u' = none := rfl

/-- The per-character escapes form a uniquely decodable code. -/
theorem escChar_decode : ∀ c1 c2 t1 t2,
    escChar c1 ++ t1 = escChar c2 ++ t2 → c1 = c2 ∧ t1 = t2 := by
  intro c1 c2 t1 t2 h
  rcases escChar_shape c1 with ⟨he1, hlo1, hhi1, hq1, hb1⟩ |
      ⟨e1, he1, hm1⟩ | ⟨he1, hlt1, hr1⟩ | ⟨he1, hge1, hlt1⟩ <;>
    rcases escChar_shape c2 with ⟨he2, hlo2, hhi2, hq2, hb2⟩ |
      ⟨e2, he2, hm2⟩ | ⟨he2, hlt2, hr2⟩ | ⟨he2, hge2, hlt2⟩ <;>
    rw [he1, he2] at h <;>
    simp only [List.cons_append, List.append_assoc, List.nil_append] at h
  · -- literal / literal
    injection h with h1 h2
    exact ⟨h1, h2⟩
  · -- literal / short escape
    injection h with h1 _
    exact absurd h1 hb1
  · -- literal / \u
    injection h with h1 _
    exact absurd h1 hb1
  · -- literal / surrogate pair
    injection h with h1 _
    exact absurd h1 hb1
  · -- short / literal
    injection h with h1 _
    exact absurd h1.symm hb2
  · -- short / short
    injection h with _ h
    injection h with h1 h2
    subst h1
    rw [hm1] at hm2
    exact ⟨Option.some.inj hm2, h2⟩
  · -- short / \u
    injection h with _ h
    injection h with h1 _
    rw [h1, escMap_u] at hm1
    exact absurd hm1 (by simp)
  · -- short / surrogate pair
    injection h with _ h
    injection h with h1 _
    rw [h1, escMap_u] at hm1
    exact absurd hm1 (by simp)
  · -- \u / literal
    injection h with h1 _
    exact absurd h1.symm hb2
  · -- \u / short
    injection h with _ h
    injection h with h1 _
    rw [← h1, escMap_u] at hm2
    exact absurd hm2 (by simp)
  · -- \u / \u
    injection h with _ h
    injection h with _ h
    have := List.append_inj h (by rw [hex4_len, hex4_len])
    have hmn := hex4_inj _ hlt1 _ hlt2 this.1
    exact ⟨charToNat_inj hmn, this.2⟩
  · -- \u / surrogate pair
    injection h with _ h
    injection h with _ h
    have := List.append_inj h (by rw [hex4_len, hex4_len])
    have hmn := hex4_inj _ hlt1 _ (by omega) this.1
    omega
  · -- surrogate pair / literal
    injection h with h1 _
    exact absurd h1.symm hb2
  · -- surrogate pair / short
    injection h with _ h
    injection h with h1 _
    rw [← h1, escMap_u] at hm2
    exact absurd hm2 (by simp)
  · -- surrogate pair / \u
    injection h with _ h
    injection h with _ h
    have := List.append_inj h (by rw [hex4_len, hex4_len])
    have hmn := hex4_inj _ (by omega) _ hlt2 this.1
    omega
  · -- surrogate pair / surrogate pair
    injection h with _ h
    injection h with _ h
    have hsplit := List.append_inj h (by rw [hex4_len, hex4_len])
    have hhi := hex4_inj _ (by omega) _ (by omega) hsplit.1
    have h' := hsplit.2
    injection h' with _ h'
    injection h' with _ h'
    have hsplit2 := List.append_inj h' (by rw [hex4_len, hex4_len])
    have hlo := hex4_inj _ (by omega) _ (by omega) hsplit2.1
    have : c1.toNat = c2.toNat := by omega
    exact ⟨charToNat_inj this, hsplit2.2⟩

theorem escChar_cons : ∀ c, ∃ d t, escChar c = d :: t := by
  intro c
  rcases escChar_shape c with ⟨he, _⟩ | ⟨e, he, _⟩ | ⟨he, _⟩ | ⟨he, _⟩
  · exact ⟨c, [], he⟩
  · exact ⟨'\\', [e], he⟩
  · exact ⟨'\\', 'u' :: hex4 c.toNat, he⟩
  · exact ⟨'\\', 'u' :: (hex4 (55296 + (c.toNat - 65536) / 1024) ++
      '\\' :: 'u' :: hex4 (56320 + (c.toNat - 65536) % 1024)), by
        rw [he]
        simp [List.cons_append]⟩

theorem escChar_head_ne_quote : ∀ c d t, escChar c = d :: t → d ≠ '"' := by
  intro c d t he
  rcases escChar_shape c with ⟨he1, _, _, hq, _⟩ | ⟨e, he1, _⟩ |
      ⟨he1, _, _⟩ | ⟨he1, _, _⟩ <;> rw [he1] at he <;>
    simp only [List.cons_append, List.cons.injEq] at he
  · rw [← he.1]
    exact hq
  · rw [← he.1]
    simp
  · rw [← he.1]
    simp
  · rw [← he.1]
    simp

/-- Escaped strings followed by a closing quote decode uniquely. -/
theorem escStr_decode : ∀ s1 s2 r1 r2 : List Char,
    escStr s1 ++ '"' :: r1 = escStr s2 ++ '"' :: r2 →
    s1 = s2 ∧ r1 = r2 := by
  intro s1
  induction s1 with
  | nil =>
    intro s2 r1 r2 h
    cases s2 with
    | nil =>
      simp only [escStr, List.nil_append] at h
      injection h with _ h2
      exact ⟨rfl, h2⟩
    | cons c cs =>
      simp only [escStr, List.nil_append, List.append_assoc] at h
      obtain ⟨d, t, hdt⟩ := escChar_cons c
      rw [hdt] at h
      simp only [List.cons_append] at h
      injection h with h1 _
      exact absurd h1.symm (escChar_head_ne_quote c d t hdt)
  | cons c1 cs1 ih =>
    intro s2 r1 r2 h
    cases s2 with
    | nil =>
      simp only [escStr, List.nil_append, List.append_assoc] at h
      obtain ⟨d, t, hdt⟩ := escChar_cons c1
      rw [hdt] at h
      simp only [List.cons_append] at h
      injection h with h1 _
      exact absurd h1 (escChar_head_ne_quote c1 d t hdt)
    | cons c2 cs2 =>
      simp only [escStr, List.append_assoc] at h
      obtain ⟨hc, ht⟩ := escChar_decode c1 c2 _ _ h
      obtain ⟨hs, hr⟩ := ih cs2 r1 r2 ht
      exact ⟨by rw [hc, hs], hr⟩

/-! ## Head classification of serialized values -/

/-- Rests that can legally follow a serialized value inside a document. -/
def GoodRest : List Char → Prop
  | [] => True
  | c :: _ => c = ',' ∨ c = '}' ∨ c = ']'

/-- Rests that cannot start with a decimal digit. -/
def NotDigitHead : List Char → Prop
  | [] => True
  | c :: _ => ¬(48 ≤ c.toNat ∧ c.toNat ≤ 57)

theorem goodRest_notDigit : ∀ r, GoodRest r → NotDigitHead r := by
  intro r h
  cases r with
  | nil => trivial
  | cons c t =>
    rcases h with h | h | h <;> (subst h; simp [NotDigitHead])

theorem digitsRun : ∀ d1 d2 r1 r2 : List Char,
    (∀ c ∈ d1, 48 ≤ c.toNat ∧ c.toNat ≤ 57) →
    (∀ c ∈ d2, 48 ≤ c.toNat ∧ c.toNat ≤ 57) →
    NotDigitHead r1 → NotDigitHead r2 →
    d1 ++ r1 = d2 ++ r2 → d1 = d2 ∧ r1 = r2 := by
  intro d1
  induction d1 with
  | nil =>
    intro d2 r1 r2 _ hd2 hr1 _ h
    cases d2 with
    | nil => exact ⟨rfl, h⟩
    | cons c cs =>
      simp only [List.nil_append, List.cons_append] at h
      rw [h] at hr1
      exact absurd (hd2 c (by simp)) (by simpa [NotDigitHead] using hr1)
  | cons c1 cs1 ih =>
    intro d2 r1 r2 hd1 hd2 hr1 hr2 h
    cases d2 with
    | nil =>
      simp only [List.cons_append, List.nil_append] at h
      rw [← h] at hr2
      exact absurd (hd1 c1 (by simp)) (by simpa [NotDigitHead] using hr2)
    | cons c2 cs2 =>
      simp only [List.cons_append] at h
      injection h with h1 h2
      obtain ⟨hcs, hr⟩ := ih cs2 r1 r2 (fun c hc => hd1 c (by simp [hc]))
        (fun c hc => hd2 c (by simp [hc])) hr1 hr2 h2
      exact ⟨by rw [h1, hcs], hr⟩

theorem intChars_decode : ∀ (n1 n2 : Int) (r1 r2 : List Char),
    NotDigitHead r1 → NotDigitHead r2 →
    intChars n1 ++ r1 = intChars n2 ++ r2 → n1 = n2 ∧ r1 = r2 := by
  intro n1 n2 r1 r2 hr1 hr2 h
  cases n1 with
  | ofNat m1 =>
    cases n2 with
    | ofNat m2 =>
      simp only [intChars] at h
      obtain ⟨hd, hr⟩ := digitsRun _ _ _ _ (natDigits_digits m1)
        (natDigits_digits m2) hr1 hr2 h
      exact ⟨by rw [natDigits_inj _ _ hd], hr⟩
    | negSucc m2 =>
      simp only [intChars] at h
      obtain ⟨c, t, hct, hlo, hhi⟩ := natDigits_cons m1
      rw [hct] at h
      simp only [List.cons_append] at h
      injection h with h1 _
      subst h1
      exact absurd (And.intro hlo hhi) (by decide)
  | negSucc m1 =>
    cases n2 with
    | ofNat m2 =>
      simp only [intChars] at h
      obtain ⟨c, t, hct, hlo, hhi⟩ := natDigits_cons m2
      rw [hct] at h
      simp only [List.cons_append] at h
      injection h with h1 _
      subst h1
      exact absurd (And.intro hlo hhi) (by decide)
    | negSucc m2 =>
      simp only [intChars, List.cons_append] at h
      injection h with _ h
      obtain ⟨hd, hr⟩ := digitsRun _ _ _ _ (natDigits_digits (m1 + 1))
        (natDigits_digits (m2 + 1)) hr1 hr2 h
      have := natDigits_inj _ _ hd
      have hm : m1 = m2 := by omega
      exact ⟨by rw [hm], hr⟩

/-- The possible first characters of a serialized value, by constructor. -/
def headOK : JValue → Char → Prop
  | .null, c => c = 'n'
  | .bool true, c => c = 't'
  | .bool false, c => c = 'f'
  | .num (.ofNat _), c => 48 ≤ c.toNat ∧ c.toNat ≤ 57
  | .num (.negSucc _), c => c = '-'
  | .nan, c => c = 'N'
  | .inf, c => c = 'I'
  | .negInf, c => c = '-'
  | .str _, c => c = '"'
  | .arr _, c => c = '['
  | .obj _, c => c = '{'

theorem serJ_head : ∀ v, ∃ c t, serJ v = c :: t ∧ headOK v c := by
  intro v
  cases v with
  | null => exact ⟨'n', ['u', 'l', 'l'], by simp [serJ], rfl⟩
  | bool b =>
    cases b with
    | true => exact ⟨'t', ['r', 'u', 'e'], by simp [serJ], rfl⟩
    | false => exact ⟨'f', ['a', 'l', 's', 'e'], by simp [serJ], rfl⟩
  | num n =>
    cases n with
    | ofNat m =>
      obtain ⟨c, t, hct, hlo, hhi⟩ := natDigits_cons m
      exact ⟨c, t, by simp [serJ, intChars, hct], ⟨hlo, hhi⟩⟩
    | negSucc m =>
      exact ⟨'-', natDigits (m + 1), by simp [serJ, intChars], rfl⟩
  | nan => exact ⟨'N', ['a', 'N'], by simp [serJ], rfl⟩
  | inf =>
    exact ⟨'I', ['n', 'f', 'i', 'n', 'i', 't', 'y'], by simp [serJ], rfl⟩
  | negInf =>
    exact ⟨'-', ['I', 'n', 'f', 'i', 'n', 'i', 't', 'y'], by simp [serJ], rfl⟩
  | str s => exact ⟨'"', escStr s ++ ['"'], by simp [serJ], rfl⟩
  | arr xs => exact ⟨'[', serItems xs ++ [']'], by simp [serJ], rfl⟩
  | obj fs => exact ⟨'{', serFields fs ++ ['}'], by simp [serJ], rfl⟩

theorem headOK_excl : ∀ v1 v2 r1 r2, serJ v1 ++ r1 = serJ v2 ++ r2 →
    ∃ c, headOK v1 c ∧ headOK v2 c := by
  intro v1 v2 r1 r2 h
  obtain ⟨c1, t1, he1, hc1⟩ := serJ_head v1
  obtain ⟨c2, t2, he2, hc2⟩ := serJ_head v2
  rw [he1, he2] at h
  simp only [List.cons_append] at h
  injection h with h1 _
  exact ⟨c1, hc1, h1 ▸ hc2⟩


theorem serJ_head_ne_term : ∀ v c t, serJ v = c :: t →
    c ≠ ',' ∧ c ≠ '}' ∧ c ≠ ']' := by
  intro v c t he
  obtain ⟨c', t', he', hc⟩ := serJ_head v
  rw [he] at he'
  injection he' with h1 _
  subst h1
  refine ⟨?_, ?_, ?_⟩ <;> intro hEq <;> subst hEq <;>
    (cases v with
     | bool b => cases b <;> simp [headOK] at hc
     | num n =>
       cases n with
       | ofNat m => simp [headOK] at hc
       | negSucc m => simp [headOK] at hc
     | null => simp [headOK] at hc
     | nan => simp [headOK] at hc
     | inf => simp [headOK] at hc
     | negInf => simp [headOK] at hc
     | str s => simp [headOK] at hc
     | arr xs => simp [headOK] at hc
     | obj fs => simp [headOK] at hc)

/-- Comma-separated serialized sequences closed by `]` decode uniquely,
given unique decoding of the elements. -/
theorem serItems_decode_aux : ∀ xs1 : List JValue,
    (∀ x ∈ xs1, ∀ y r1 r2, GoodRest r1 → GoodRest r2 →
      serJ x ++ r1 = serJ y ++ r2 → x = y ∧ r1 = r2) →
    ∀ xs2 r1 r2, serItems xs1 ++ ']' :: r1 = serItems xs2 ++ ']' :: r2 →
    xs1 = xs2 ∧ r1 = r2 := by
  intro xs1
  induction xs1 with
  | nil =>
    intro _ xs2 r1 r2 h
    cases xs2 with
    | nil =>
      simp only [serItems, List.nil_append] at h
      injection h with _ h2
      exact ⟨rfl, h2⟩
    | cons y ys =>
      simp only [serItems, List.nil_append, List.append_assoc] at h
      obtain ⟨c, t, hct, _⟩ := serJ_head y
      rw [hct] at h
      simp only [List.cons_append] at h
      injection h with h1 _
      exact absurd h1.symm (serJ_head_ne_term y c t hct).2.2
  | cons x xs ih =>
    intro ihx xs2 r1 r2 h
    cases xs2 with
    | nil =>
      simp only [serItems, List.nil_append, List.append_assoc] at h
      obtain ⟨c, t, hct, _⟩ := serJ_head x
      rw [hct] at h
      simp only [List.cons_append] at h
      injection h with h1 _
      exact absurd h1 (serJ_head_ne_term x c t hct).2.2
    | cons y ys =>
      simp only [serItems, List.append_assoc] at h
      have g1 : GoodRest (serArrTail xs ++ ']' :: r1) := by
        cases xs <;> simp [serArrTail, GoodRest]
      have g2 : GoodRest (serArrTail ys ++ ']' :: r2) := by
        cases ys <;> simp [serArrTail, GoodRest]
      obtain ⟨hxy, hE⟩ := ihx x (by simp) y _ _ g1 g2 h
      subst hxy
      cases xs with
      | nil =>
        cases ys with
        | nil =>
          simp only [serArrTail, List.nil_append] at hE
          injection hE with _ h2
          exact ⟨rfl, h2⟩
        | cons z zs =>
          simp only [serArrTail, List.nil_append, List.cons_append] at hE
          injection hE with h1 _
          exact absurd h1 (by decide)
      | cons z zs =>
        cases ys with
        | nil =>
          simp only [serArrTail, List.nil_append, List.cons_append] at hE
          injection hE with h1 _
          exact absurd h1 (by decide)
        | cons w ws =>
          simp only [serArrTail, List.cons_append, List.append_assoc] at hE
          injection hE with _ hE
          injection hE with _ hE
          have hE' : serItems (z :: zs) ++ ']' :: r1 =
              serItems (w :: ws) ++ ']' :: r2 := by
            simp only [serItems, List.append_assoc]
            exact hE
          obtain ⟨hzs, hr⟩ :=
            ih (fun a ha => ihx a (List.mem_cons_of_mem x ha)) _ _ _ hE'
          rw [hzs]
          exact ⟨rfl, hr⟩

/-- Serialized field lists closed by a brace decode uniquely, given unique
decoding of the field values. -/
theorem serFields_decode_aux : ∀ fs1 : List JField,
    (∀ p ∈ fs1, ∀ y r1 r2, GoodRest r1 → GoodRest r2 →
      serJ p.2 ++ r1 = serJ y ++ r2 → p.2 = y ∧ r1 = r2) →
    ∀ fs2 r1 r2, serFields fs1 ++ '}' :: r1 = serFields fs2 ++ '}' :: r2 →
    fs1 = fs2 ∧ r1 = r2 := by
  intro fs1
  induction fs1 with
  | nil =>
    intro _ fs2 r1 r2 h
    cases fs2 with
    | nil =>
      simp only [serFields, List.nil_append] at h
      injection h with _ h2
      exact ⟨rfl, h2⟩
    | cons q gs =>
      obtain ⟨l, w⟩ := q
      simp only [serFields, serField, List.nil_append, List.cons_append,
        List.append_assoc] at h
      injection h with h1 _
      exact absurd h1 (by decide)
  | cons p ps ih =>
    obtain ⟨k, v⟩ := p
    intro ihp fs2 r1 r2 h
    cases fs2 with
    | nil =>
      simp only [serFields, serField, List.cons_append, List.append_assoc,
        List.nil_append] at h
      injection h with h1 _
      exact absurd h1 (by decide)
    | cons q gs =>
      obtain ⟨l, w⟩ := q
      simp only [serFields, serField, List.cons_append,
        List.append_assoc] at h
      injection h with _ h
      obtain ⟨hk, hE⟩ := escStr_decode k l _ _ h
      subst hk
      injection hE with _ hE
      injection hE with _ hE
      have g1 : GoodRest (serObjTail ps ++ '}' :: r1) := by
        cases ps <;> simp [serObjTail, GoodRest]
      have g2 : GoodRest (serObjTail gs ++ '}' :: r2) := by
        cases gs <;> simp [serObjTail, GoodRest]
      obtain ⟨hv, hE2⟩ := ihp (k, v) (by simp) w _ _ g1 g2 hE
      subst hv
      cases ps with
      | nil =>
        cases gs with
        | nil =>
          simp only [serObjTail, List.nil_append] at hE2
          injection hE2 with _ h2
          exact ⟨rfl, h2⟩
        | cons z zs =>
          simp only [serObjTail, List.nil_append, List.cons_append] at hE2
          injection hE2 with h1 _
          exact absurd h1 (by decide)
      | cons z zs =>
        cases gs with
        | nil =>
          simp only [serObjTail, List.nil_append, List.cons_append] at hE2
          injection hE2 with h1 _
          exact absurd h1 (by decide)
        | cons w2 ws =>
          simp only [serObjTail, List.cons_append, List.append_assoc] at hE2
          injection hE2 with _ hE2
          injection hE2 with _ hE2
          have hE' : serFields (z :: zs) ++ '}' :: r1 =
              serFields (w2 :: ws) ++ '}' :: r2 := by
            simp only [serFields, List.append_assoc]
            exact hE2
          obtain ⟨hzs, hr⟩ :=
            ih (fun a ha => ihp a (List.mem_cons_of_mem (k, v) ha)) _ _ _ hE'
          rw [hzs]
          exact ⟨rfl, hr⟩

/-- The canonical serializer is injective: a serialized value followed by a
legal continuation determines the value and the continuation. -/
theorem serJ_decode : ∀ v1 v2 : JValue, ∀ r1 r2 : List Char,
    GoodRest r1 → GoodRest r2 → serJ v1 ++ r1 = serJ v2 ++ r2 →
    v1 = v2 ∧ r1 = r2 := by
  intro v1
  induction v1 using JValue.strongInd with
  | hnull =>
    intro v2 r1 r2 _ _ h
    obtain ⟨c, hc1, hc2⟩ := headOK_excl _ _ _ _ h
    simp only [headOK] at hc1
    subst hc1
    cases v2 with
    | null =>
      simp [serJ] at h
      exact ⟨rfl, h⟩
    | bool b => cases b <;> simp [headOK] at hc2
    | num n =>
      cases n with
      | ofNat m => simp [headOK] at hc2
      | negSucc m => simp [headOK] at hc2
    | nan => simp [headOK] at hc2
    | inf => simp [headOK] at hc2
    | negInf => simp [headOK] at hc2
    | str s => simp [headOK] at hc2
    | arr xs => simp [headOK] at hc2
    | obj fs => simp [headOK] at hc2
  | hbool b1 =>
    intro v2 r1 r2 _ _ h
    obtain ⟨c, hc1, hc2⟩ := headOK_excl _ _ _ _ h
    cases v2 with
    | bool b2 =>
      cases b1 <;> cases b2
      · simp [serJ] at h
        exact ⟨rfl, h⟩
      · simp [serJ] at h
      · simp [serJ] at h
      · simp [serJ] at h
        exact ⟨rfl, h⟩
    | num n =>
      cases b1 <;> simp only [headOK] at hc1 <;> subst hc1 <;>
        (cases n with
         | ofNat m => simp [headOK] at hc2
         | negSucc m => simp [headOK] at hc2)
    | null =>
      cases b1 <;> simp only [headOK] at hc1 <;> subst hc1 <;>
        simp [headOK] at hc2
    | nan =>
      cases b1 <;> simp only [headOK] at hc1 <;> subst hc1 <;>
        simp [headOK] at hc2
    | inf =>
      cases b1 <;> simp only [headOK] at hc1 <;> subst hc1 <;>
        simp [headOK] at hc2
    | negInf =>
      cases b1 <;> simp only [headOK] at hc1 <;> subst hc1 <;>
        simp [headOK] at hc2
    | str s =>
      cases b1 <;> simp only [headOK] at hc1 <;> subst hc1 <;>
        simp [headOK] at hc2
    | arr xs =>
      cases b1 <;> simp only [headOK] at hc1 <;> subst hc1 <;>
        simp [headOK] at hc2
    | obj fs =>
      cases b1 <;> simp only [headOK] at hc1 <;> subst hc1 <;>
        simp [headOK] at hc2
  | hnan =>
    intro v2 r1 r2 _ _ h
    obtain ⟨c, hc1, hc2⟩ := headOK_excl _ _ _ _ h
    simp only [headOK] at hc1
    subst hc1
    cases v2 with
    | nan =>
      simp [serJ] at h
      exact ⟨rfl, h⟩
    | bool b => cases b <;> simp [headOK] at hc2
    | num n =>
      cases n with
      | ofNat m => simp [headOK] at hc2
      | negSucc m => simp [headOK] at hc2
    | null => simp [headOK] at hc2
    | inf => simp [headOK] at hc2
    | negInf => simp [headOK] at hc2
    | str s => simp [headOK] at hc2
    | arr xs => simp [headOK] at hc2
    | obj fs => simp [headOK] at hc2
  | hinf =>
    intro v2 r1 r2 _ _ h
    obtain ⟨c, hc1, hc2⟩ := headOK_excl _ _ _ _ h
    simp only [headOK] at hc1
    subst hc1
    cases v2 with
    | inf =>
      simp [serJ] at h
      exact ⟨rfl, h⟩
    | bool b => cases b <;> simp [headOK] at hc2
    | num n =>
      cases n with
      | ofNat m => simp [headOK] at hc2
      | negSucc m => simp [headOK] at hc2
    | null => simp [headOK] at hc2
    | nan => simp [headOK] at hc2
    | negInf => simp [headOK] at hc2
    | str s => simp [headOK] at hc2
    | arr xs => simp [headOK] at hc2
    | obj fs => simp [headOK] at hc2
  | hneg =>
    intro v2 r1 r2 _ _ h
    obtain ⟨c, hc1, hc2⟩ := headOK_excl _ _ _ _ h
    simp only [headOK] at hc1
    subst hc1
    cases v2 with
    | negInf =>
      simp [serJ] at h
      exact ⟨rfl, h⟩
    | num n =>
      cases n with
      | ofNat m => simp [headOK] at hc2
      | negSucc m =>
        simp only [serJ, intChars, List.cons_append] at h
        injection h with _ h
        obtain ⟨d, t, hdt, hlo, hhi⟩ := natDigits_cons (m + 1)
        rw [hdt] at h
        simp only [List.cons_append] at h
        injection h with h1 _
        rw [← h1] at hlo hhi
        exact absurd (And.intro hlo hhi) (by decide)
    | bool b => cases b <;> simp [headOK] at hc2
    | null => simp [headOK] at hc2
    | nan => simp [headOK] at hc2
    | inf => simp [headOK] at hc2
    | str s => simp [headOK] at hc2
    | arr xs => simp [headOK] at hc2
    | obj fs => simp [headOK] at hc2
  | hnum n1 =>
    intro v2 r1 r2 g1 g2 h
    cases v2 with
    | num n2 =>
      simp only [serJ] at h
      obtain ⟨hn, hr⟩ := intChars_decode n1 n2 r1 r2
        (goodRest_notDigit _ g1) (goodRest_notDigit _ g2) h
      exact ⟨by rw [hn], hr⟩
    | negInf =>
      obtain ⟨c, hc1, hc2⟩ := headOK_excl _ _ _ _ h
      simp only [headOK] at hc2
      subst hc2
      cases n1 with
      | ofNat m => simp [headOK] at hc1
      | negSucc m =>
        simp only [serJ, intChars, List.cons_append] at h
        injection h with _ h
        obtain ⟨d, t, hdt, hlo, hhi⟩ := natDigits_cons (m + 1)
        rw [hdt] at h
        simp only [List.cons_append] at h
        injection h with h1 _
        rw [h1] at hlo hhi
        exact absurd (And.intro hlo hhi) (by decide)
    | null =>
      obtain ⟨c, hc1, hc2⟩ := headOK_excl _ _ _ _ h
      simp only [headOK] at hc2
      subst hc2
      cases n1 with
      | ofNat m => simp [headOK] at hc1
      | negSucc m => simp [headOK] at hc1
    | bool b =>
      obtain ⟨c, hc1, hc2⟩ := headOK_excl _ _ _ _ h
      cases b <;> simp only [headOK] at hc2 <;> subst hc2 <;>
        (cases n1 with
         | ofNat m => simp [headOK] at hc1
         | negSucc m => simp [headOK] at hc1)
    | nan =>
      obtain ⟨c, hc1, hc2⟩ := headOK_excl _ _ _ _ h
      simp only [headOK] at hc2
      subst hc2
      cases n1 with
      | ofNat m => simp [headOK] at hc1
      | negSucc m => simp [headOK] at hc1
    | inf =>
      obtain ⟨c, hc1, hc2⟩ := headOK_excl _ _ _ _ h
      simp only [headOK] at hc2
      subst hc2
      cases n1 with
      | ofNat m => simp [headOK] at hc1
      | negSucc m => simp [headOK] at hc1
    | str s =>
      obtain ⟨c, hc1, hc2⟩ := headOK_excl _ _ _ _ h
      simp only [headOK] at hc2
      subst hc2
      cases n1 with
      | ofNat m => simp [headOK] at hc1
      | negSucc m => simp [headOK] at hc1
    | arr xs =>
      obtain ⟨c, hc1, hc2⟩ := headOK_excl _ _ _ _ h
      simp only [headOK] at hc2
      subst hc2
      cases n1 with
      | ofNat m => simp [headOK] at hc1
      | negSucc m => simp [headOK] at hc1
    | obj fs =>
      obtain ⟨c, hc1, hc2⟩ := headOK_excl _ _ _ _ h
      simp only [headOK] at hc2
      subst hc2
      cases n1 with
      | ofNat m => simp [headOK] at hc1
      | negSucc m => simp [headOK] at hc1
  | hstr s1 =>
    intro v2 r1 r2 _ _ h
    obtain ⟨c, hc1, hc2⟩ := headOK_excl _ _ _ _ h
    simp only [headOK] at hc1
    subst hc1
    cases v2 with
    | str s2 =>
      simp only [serJ, List.cons_append, List.append_assoc] at h
      injection h with _ h
      obtain ⟨hs, hr⟩ := escStr_decode s1 s2 r1 r2 h
      exact ⟨by rw [hs], hr⟩
    | bool b => cases b <;> simp [headOK] at hc2
    | num n =>
      cases n with
      | ofNat m => simp [headOK] at hc2
      | negSucc m => simp [headOK] at hc2
    | null => simp [headOK] at hc2
    | nan => simp [headOK] at hc2
    | inf => simp [headOK] at hc2
    | negInf => simp [headOK] at hc2
    | arr xs => simp [headOK] at hc2
    | obj fs => simp [headOK] at hc2
  | harr xs1 ih =>
    intro v2 r1 r2 _ _ h
    obtain ⟨c, hc1, hc2⟩ := headOK_excl _ _ _ _ h
    simp only [headOK] at hc1
    subst hc1
    cases v2 with
    | arr xs2 =>
      simp only [serJ, List.cons_append, List.append_assoc] at h
      injection h with _ h
      obtain ⟨hx, hr⟩ := serItems_decode_aux xs1 ih xs2 r1 r2 h
      exact ⟨by rw [hx], hr⟩
    | bool b => cases b <;> simp [headOK] at hc2
    | num n =>
      cases n with
      | ofNat m => simp [headOK] at hc2
      | negSucc m => simp [headOK] at hc2
    | null => simp [headOK] at hc2
    | nan => simp [headOK] at hc2
    | inf => simp [headOK] at hc2
    | negInf => simp [headOK] at hc2
    | str s => simp [headOK] at hc2
    | obj fs => simp [headOK] at hc2
  | hobj fs1 ih =>
    intro v2 r1 r2 _ _ h
    obtain ⟨c, hc1, hc2⟩ := headOK_excl _ _ _ _ h
    simp only [headOK] at hc1
    subst hc1
    cases v2 with
    | obj fs2 =>
      simp only [serJ, List.cons_append, List.append_assoc] at h
      injection h with _ h
      obtain ⟨hf, hr⟩ := serFields_decode_aux fs1 ih fs2 r1 r2 h
      exact ⟨by rw [hf], hr⟩
    | bool b => cases b <;> simp [headOK] at hc2
    | num n =>
      cases n with
      | ofNat m => simp [headOK] at hc2
      | negSucc m => simp [headOK] at hc2
    | null => simp [headOK] at hc2
    | nan => simp [headOK] at hc2
    | inf => simp [headOK] at hc2
    | negInf => simp [headOK] at hc2
    | str s => simp [headOK] at hc2
    | arr ys => simp [headOK] at hc2

/-- Injectivity of the serializer on whole documents. -/
theorem serJ_inj : ∀ v1 v2 : JValue, serJ v1 = serJ v2 → v1 = v2 := by
  intro v1 v2 h
  have h' : serJ v1 ++ [] = serJ v2 ++ [] := by simp [h]
  exact (serJ_decode v1 v2 [] [] trivial trivial h').1

theorem escMap_some_ascii : ∀ e c, escMap e = some c → e.toNat < 128 := by
  intro e c h
  unfold escMap at h
  split_ifs at h <;> omega

theorem hexDigit_ascii : ∀ k, k < 16 → (hexDigit k).toNat < 128 := by
  decide

theorem hex4_ascii : ∀ n, ∀ c ∈ hex4 n, c.toNat < 128 := by
  intro n c hc
  simp only [hex4, hexPair, List.cons_append, List.nil_append,
    List.mem_cons, List.not_mem_nil, or_false] at hc
  rcases hc with rfl | rfl | rfl | rfl <;>
    exact hexDigit_ascii _ (Nat.mod_lt _ (by omega))

theorem escChar_ascii : ∀ c0, ∀ c ∈ escChar c0, c.toNat < 128 := by
  intro c0 c hc
  rcases escChar_shape c0 with ⟨he, _, hhi, _, _⟩ | ⟨e, he, hm⟩ |
      ⟨he, _, _⟩ | ⟨he, _, _⟩ <;> rw [he] at hc
  · simp at hc
    subst hc
    omega
  · simp at hc
    rcases hc with rfl | rfl
    · decide
    · exact escMap_some_ascii _ c0 hm
  · simp at hc
    rcases hc with rfl | rfl | hc
    · decide
    · decide
    · exact hex4_ascii _ c hc
  · simp at hc
    rcases hc with rfl | rfl | hc | rfl | rfl | hc
    · decide
    · decide
    · exact hex4_ascii _ c hc
    · decide
    · decide
    · exact hex4_ascii _ c hc

theorem escStr_ascii : ∀ s, ∀ c ∈ escStr s, c.toNat < 128 := by
  intro s
  induction s with
  | nil => intro c hc; simp [escStr] at hc
  | cons c0 cs ih =>
    intro c hc
    simp only [escStr] at hc
    rcases List.mem_append.mp hc with hm | hm
    · exact escChar_ascii c0 c hm
    · exact ih c hm

theorem natDigits_ascii : ∀ n, ∀ c ∈ natDigits n, c.toNat < 128 := by
  intro n c hc
  have := natDigits_digits n c hc
  omega

theorem serArrTail_ascii : ∀ xs : List JValue,
    (∀ x ∈ xs, ∀ c ∈ serJ x, c.toNat < 128) →
    ∀ c ∈ serArrTail xs, c.toNat < 128 := by
  intro xs
  induction xs with
  | nil => intro _ c hc; simp [serArrTail] at hc
  | cons x xs ih =>
    intro hx c hc
    simp only [serArrTail] at hc
    rcases List.mem_cons.mp hc with rfl | hc
    · decide
    rcases List.mem_cons.mp hc with rfl | hc
    · decide
    rcases List.mem_append.mp hc with hm | hm
    · exact hx x (by simp) c hm
    · exact ih (fun a ha => hx a (List.mem_cons_of_mem x ha)) c hm

theorem serItems_ascii : ∀ xs : List JValue,
    (∀ x ∈ xs, ∀ c ∈ serJ x, c.toNat < 128) →
    ∀ c ∈ serItems xs, c.toNat < 128 := by
  intro xs hx c hc
  cases xs with
  | nil => simp [serItems] at hc
  | cons x xs =>
    simp only [serItems] at hc
    rcases List.mem_append.mp hc with hm | hm
    · exact hx x (by simp) c hm
    · exact serArrTail_ascii xs
        (fun a ha => hx a (List.mem_cons_of_mem x ha)) c hm

theorem serField_ascii : ∀ p : JField, (∀ c ∈ serJ p.2, c.toNat < 128) →
    ∀ c ∈ serField p, c.toNat < 128 := by
  intro p hp c hc
  obtain ⟨k, v⟩ := p
  simp only [serField] at hc
  rcases List.mem_cons.mp hc with rfl | hc
  · decide
  rcases List.mem_append.mp hc with hm | hc
  · exact escStr_ascii k c hm
  rcases List.mem_cons.mp hc with rfl | hc
  · decide
  rcases List.mem_cons.mp hc with rfl | hc
  · decide
  rcases List.mem_cons.mp hc with rfl | hc
  · decide
  exact hp c hc

theorem serObjTail_ascii : ∀ fs : List JField,
    (∀ p ∈ fs, ∀ c ∈ serJ p.2, c.toNat < 128) →
    ∀ c ∈ serObjTail fs, c.toNat < 128 := by
  intro fs
  induction fs with
  | nil => intro _ c hc; simp [serObjTail] at hc
  | cons p ps ih =>
    intro hp c hc
    simp only [serObjTail] at hc
    rcases List.mem_cons.mp hc with rfl | hc
    · decide
    rcases List.mem_cons.mp hc with rfl | hc
    · decide
    rcases List.mem_append.mp hc with hm | hm
    · exact serField_ascii p (hp p (by simp)) c hm
    · exact ih (fun a ha => hp a (List.mem_cons_of_mem p ha)) c hm

theorem serFields_ascii : ∀ fs : List JField,
    (∀ p ∈ fs, ∀ c ∈ serJ p.2, c.toNat < 128) →
    ∀ c ∈ serFields fs, c.toNat < 128 := by
  intro fs hp c hc
  cases fs with
  | nil => simp [serFields] at hc
  | cons p ps =>
    simp only [serFields] at hc
    rcases List.mem_append.mp hc with hm | hm
    · exact serField_ascii p (hp p (by simp)) c hm
    · exact serObjTail_ascii ps
        (fun a ha => hp a (List.mem_cons_of_mem p ha)) c hm

/-- The canonical JSON text is pure ASCII (`ensure_ascii=True`). -/
theorem serJ_ascii : ∀ v, ∀ c ∈ serJ v, c.toNat < 128 := by
  intro v
  induction v using JValue.strongInd with
  | hnull =>
    intro c hc
    simp [serJ] at hc
    rcases hc with rfl | rfl | rfl | rfl <;> decide
  | hbool b =>
    cases b <;> intro c hc <;> simp [serJ] at hc
    · rcases hc with rfl | rfl | rfl | rfl | rfl <;> decide
    · rcases hc with rfl | rfl | rfl | rfl <;> decide
  | hnum n =>
    intro c hc
    cases n with
    | ofNat m =>
      simp only [serJ, intChars] at hc
      exact natDigits_ascii m c hc
    | negSucc m =>
      simp only [serJ, intChars] at hc
      rcases List.mem_cons.mp hc with rfl | hc
      · decide
      · exact natDigits_ascii (m + 1) c hc
  | hnan =>
    intro c hc
    simp [serJ] at hc
    rcases hc with rfl | rfl | rfl <;> decide
  | hinf =>
    intro c hc
    simp [serJ] at hc
    rcases hc with rfl | rfl | rfl | rfl | rfl | rfl | rfl | rfl <;> decide
  | hneg =>
    intro c hc
    simp [serJ] at hc
    rcases hc with rfl | rfl | rfl | rfl | rfl | rfl | rfl | rfl | rfl <;>
      decide
  | hstr s =>
    intro c hc
    simp only [serJ] at hc
    rcases List.mem_cons.mp hc with rfl | hc
    · decide
    rcases List.mem_append.mp hc with hm | hm
    · exact escStr_ascii s c hm
    · simp at hm
      subst hm
      decide
  | harr xs ih =>
    intro c hc
    simp only [serJ] at hc
    rcases List.mem_cons.mp hc with rfl | hc
    · decide
    rcases List.mem_append.mp hc with hm | hm
    · exact serItems_ascii xs ih c hm
    · simp at hm
      subst hm
      decide
  | hobj fs ih =>
    intro c hc
    simp only [serJ] at hc
    rcases List.mem_cons.mp hc with rfl | hc
    · decide
    rcases List.mem_append.mp hc with hm | hm
    · exact serFields_ascii fs ih c hm
    · simp at hm
      subst hm
      decide

theorem utf8Char_ascii : ∀ c : Char, c.toNat < 128 → utf8Char c = [c.toNat] := by
  intro c h
  unfold utf8Char
  rw [if_pos h]

/-- UTF-8 is injective on ASCII strings. -/
theorem utf8_ascii_inj : ∀ s1 s2 : List Char,
    (∀ c ∈ s1, c.toNat < 128) → (∀ c ∈ s2, c.toNat < 128) →
    utf8Bytes s1 = utf8Bytes s2 → s1 = s2 := by
  intro s1
  induction s1 with
  | nil =>
    intro s2 _ h2 h
    cases s2 with
    | nil => rfl
    | cons c cs =>
      simp only [utf8Bytes] at h
      rw [utf8Char_ascii c (h2 c (by simp))] at h
      exact absurd h (by simp)
  | cons c1 cs1 ih =>
    intro s2 h1 h2 h
    cases s2 with
    | nil =>
      simp only [utf8Bytes] at h
      rw [utf8Char_ascii c1 (h1 c1 (by simp))] at h
      exact absurd h (by simp)
    | cons c2 cs2 =>
      simp only [utf8Bytes] at h
      rw [utf8Char_ascii c1 (h1 c1 (by simp)),
        utf8Char_ascii c2 (h2 c2 (by simp))] at h
      simp only [List.cons_append, List.nil_append] at h
      injection h with hc hrest
      rw [charToNat_inj hc,
        ih cs2 (fun c hc => h1 c (List.mem_cons_of_mem c1 hc))
          (fun c hc => h2 c (List.mem_cons_of_mem c2 hc)) hrest]

/-- Canonical bytes agree exactly when the canonical trees agree. -/
theorem canonicalBytes_iff : ∀ v1 v2 : JValue,
    canonicalBytes v1 = canonicalBytes v2 ↔ sortRec v1 = sortRec v2 := by
  intro v1 v2
  constructor
  · intro h
    have hs : canonicalJson v1 = canonicalJson v2 :=
      utf8_ascii_inj _ _ (serJ_ascii (sortRec v1)) (serJ_ascii (sortRec v2)) h
    exact serJ_inj _ _ hs
  · intro h
    unfold canonicalBytes canonicalJson
    rw [h]

/-! ## `KeyPerm` is an equivalence matching canonical-tree equality -/

theorem keyPermFields_iff : ∀ fs gs : List JField,
    KeyPermFields fs gs ↔
    List.Forall₂ (fun p q : JField => p.1 = q.1 ∧ KeyPerm p.2 q.2) fs gs := by
  intro fs
  induction fs with
  | nil =>
    intro gs
    constructor
    · intro h
      cases h
      exact List.Forall₂.nil
    · intro h
      cases h
      exact KeyPermFields.nil
  | cons p ps ih =>
    intro gs
    obtain ⟨k, v⟩ := p
    constructor
    · intro h
      cases h with
      | cons hvw hrest => exact List.Forall₂.cons ⟨rfl, hvw⟩ ((ih _).mp hrest)
    · intro h
      cases h with
      | cons hpq hrest =>
        rename_i q gs'
        obtain ⟨l, w⟩ := q
        obtain ⟨hk, hvw⟩ := hpq
        subst hk
        exact KeyPermFields.cons hvw ((ih _).mpr hrest)

theorem sortRec_keyPerm : ∀ v, KeyPerm v (sortRec v) := by
  intro v
  induction v using JValue.strongInd with
  | hnull => exact KeyPerm.null
  | hbool b => exact KeyPerm.bool b
  | hnum n => exact KeyPerm.num n
  | hnan => exact KeyPerm.nan
  | hinf => exact KeyPerm.inf
  | hneg => exact KeyPerm.negInf
  | hstr s => exact KeyPerm.str s
  | harr xs ih =>
    simp only [sortRec]
    refine KeyPerm.arr ?_
    induction xs with
    | nil => exact KeyPermItems.nil
    | cons x xs ihl =>
      simp only [sortRecList]
      exact KeyPermItems.cons (ih x (by simp))
        (ihl (fun a ha => ih a (List.mem_cons_of_mem x ha)))
  | hobj fs ih =>
    simp only [sortRec]
    refine KeyPerm.obj ?_ (sortFields_perm (sortRecFields fs)).symm
    induction fs with
    | nil => exact KeyPermFields.nil
    | cons p ps ihl =>
      obtain ⟨k, v⟩ := p
      simp only [sortRecFields]
      exact KeyPermFields.cons (ih (k, v) (by simp))
        (ihl (fun a ha => ih a (List.mem_cons_of_mem (k, v) ha)))

theorem keyPerm_symm : ∀ v w, KeyPerm v w → KeyPerm w v := by
  have fieldsFlip : ∀ fs gs, KeyPermFields fs gs →
      (∀ p ∈ fs, ∀ w, KeyPerm p.2 w → KeyPerm w p.2) →
      KeyPermFields gs fs := by
    intro fs
    induction fs with
    | nil => intro gs h _; cases h; exact KeyPermFields.nil
    | cons p ps ihl =>
      obtain ⟨k, v⟩ := p
      intro gs h ihp
      cases h with
      | cons hvw hrest =>
        exact KeyPermFields.cons (ihp (k, v) (by simp) _ hvw)
          (ihl _ hrest (fun a ha => ihp a (List.mem_cons_of_mem (k, v) ha)))
  intro v
  induction v using JValue.strongInd with
  | hnull => intro w h; cases h; exact KeyPerm.null
  | hbool b => intro w h; cases h; exact KeyPerm.bool b
  | hnum n => intro w h; cases h; exact KeyPerm.num n
  | hnan => intro w h; cases h; exact KeyPerm.nan
  | hinf => intro w h; cases h; exact KeyPerm.inf
  | hneg => intro w h; cases h; exact KeyPerm.negInf
  | hstr s => intro w h; cases h; exact KeyPerm.str s
  | harr xs ih =>
    intro w h
    cases h with
    | arr hxs =>
      rename_i ys
      refine KeyPerm.arr ?_
      have itemsFlip : ∀ as bs, KeyPermItems as bs →
          (∀ x ∈ as, ∀ w, KeyPerm x w → KeyPerm w x) →
          KeyPermItems bs as := by
        intro as
        induction as with
        | nil => intro bs hab _; cases hab; exact KeyPermItems.nil
        | cons a as ihl =>
          intro bs hab ihx
          cases hab with
          | cons hxy hrest =>
            exact KeyPermItems.cons (ihx a (by simp) _ hxy)
              (ihl _ hrest (fun b hb => ihx b (List.mem_cons_of_mem a hb)))
      exact itemsFlip xs ys hxs ih
  | hobj fs ih =>
    intro w h
    cases h with
    | obj hfg hperm =>
      rename_i gs hs
      have hflip : KeyPermFields gs fs := fieldsFlip fs gs hfg ih
      obtain ⟨mid, hmid, hpm⟩ :=
        List.perm_comp_forall₂ hperm.symm ((keyPermFields_iff gs fs).mp hflip)
      exact KeyPerm.obj ((keyPermFields_iff hs mid).mpr hmid) hpm

theorem forall₂_compose_fields :
    ∀ (fs gs mid : List JField),
    KeyPermFields fs gs →
    List.Forall₂ (fun p q : JField => p.1 = q.1 ∧ KeyPerm p.2 q.2) gs mid →
    (∀ p ∈ fs, ∀ w u, KeyPerm p.2 w → KeyPerm w u → KeyPerm p.2 u) →
    KeyPermFields fs mid := by
  intro fs
  induction fs with
  | nil =>
    intro gs mid h1 h2 _
    cases h1
    cases h2
    exact KeyPermFields.nil
  | cons p ps ihl =>
    obtain ⟨k, v⟩ := p
    intro gs mid h1 h2 ihp
    cases h1 with
    | cons hvw hrest =>
      cases h2 with
      | cons hpq hrest2 =>
        rename_i w gs' q mid'
        obtain ⟨hk, hwu⟩ := hpq
        simp only at hk
        obtain ⟨l, u⟩ := q
        simp only at hk
        subst hk
        exact KeyPermFields.cons (ihp (k, v) (by simp) _ _ hvw hwu)
          (ihl _ _ hrest hrest2
            (fun a ha => ihp a (List.mem_cons_of_mem (k, v) ha)))

theorem keyPerm_trans : ∀ v w u, KeyPerm v w → KeyPerm w u → KeyPerm v u := by
  intro v
  induction v using JValue.strongInd with
  | hnull => intro w u h1 h2; cases h1; exact h2
  | hbool b => intro w u h1 h2; cases h1; exact h2
  | hnum n => intro w u h1 h2; cases h1; exact h2
  | hnan => intro w u h1 h2; cases h1; exact h2
  | hinf => intro w u h1 h2; cases h1; exact h2
  | hneg => intro w u h1 h2; cases h1; exact h2
  | hstr s => intro w u h1 h2; cases h1; exact h2
  | harr xs ih =>
    intro w u h1 h2
    cases h1 with
    | arr hxy =>
      rename_i ys
      cases h2 with
      | arr hyz =>
        rename_i zs
        refine KeyPerm.arr ?_
        have itemsTrans : ∀ as bs cs, KeyPermItems as bs →
            KeyPermItems bs cs →
            (∀ x ∈ as, ∀ w u, KeyPerm x w → KeyPerm w u → KeyPerm x u) →
            KeyPermItems as cs := by
          intro as
          induction as with
          | nil =>
            intro bs cs hab hbc _
            cases hab
            cases hbc
            exact KeyPermItems.nil
          | cons a as ihl =>
            intro bs cs hab hbc ihx
            cases hab with
            | cons hx hrest1 =>
              cases hbc with
              | cons hy hrest2 =>
                exact KeyPermItems.cons (ihx a (by simp) _ _ hx hy)
                  (ihl _ _ hrest1 hrest2
                    (fun b hb => ihx b (List.mem_cons_of_mem a hb)))
        exact itemsTrans xs ys zs hxy hyz ih
  | hobj fs ih =>
    intro w u h1 h2
    cases h1 with
    | obj hF1 hP1 =>
      rename_i gs hs
      cases h2 with
      | obj hF2 hP2 =>
        rename_i is ts
        obtain ⟨mid, hmid, hpm⟩ :=
          List.perm_comp_forall₂ hP1 ((keyPermFields_iff _ _).mp hF2)
        exact KeyPerm.obj (forall₂_compose_fields fs gs mid hF1 hmid ih)
          (hpm.trans hP2)

theorem keyPerm_of_sortRec_eq : ∀ v1 v2,
    sortRec v1 = sortRec v2 → KeyPerm v1 v2 := by
  intro v1 v2 h
  refine keyPerm_trans v1 (sortRec v1) v2 (sortRec_keyPerm v1) ?_
  rw [h]
  exact keyPerm_symm _ _ (sortRec_keyPerm v2)

/-! ## Base64 round trip and SHA-256 digest shape -/

theorem b64Index_b64Char : ∀ i, i < 64 → b64Index (b64Char i) = some i := by
  decide

theorem b64Char_ne_eq : ∀ i, i < 64 → b64Char i ≠ '=' := by
  decide

theorem b64Char_filter : ∀ i, i < 64 →
    ((b64Index (b64Char i)).isSome || b64Char i = '=') = true := by
  intro i hi
  rw [b64Index_b64Char i hi]
  simp

theorem b64Encode_filter : ∀ bs : List Nat, (∀ b ∈ bs, b < 256) →
    (b64Encode bs).filter (fun c => (b64Index c).isSome || c = '=') =
    b64Encode bs := by
  intro bs hb
  rw [List.filter_eq_self]
  induction bs using b64Encode.induct with
  | case1 =>
    intro c hc
    simp [b64Encode] at hc
  | case2 b =>
    intro c hc
    simp only [b64Encode, List.mem_cons, List.not_mem_nil, or_false] at hc
    have hblt : b < 256 := hb b (by simp)
    rcases hc with rfl | rfl | rfl | rfl
    · exact b64Char_filter _ (by omega)
    · exact b64Char_filter _ (by omega)
    · simp
    · simp
  | case3 b c2 =>
    intro c hc
    simp only [b64Encode, List.mem_cons, List.not_mem_nil, or_false] at hc
    have hblt : b < 256 := hb b (by simp)
    have hclt : c2 < 256 := hb c2 (by simp)
    rcases hc with rfl | rfl | rfl | rfl
    · exact b64Char_filter _ (by omega)
    · exact b64Char_filter _ (by omega)
    · exact b64Char_filter _ (by omega)
    · simp
  | case4 b c2 d rest ih =>
    intro c hc
    simp only [b64Encode, List.mem_cons] at hc
    have hblt : b < 256 := hb b (by simp)
    have hclt : c2 < 256 := hb c2 (by simp)
    have hdlt : d < 256 := hb d (by simp)
    rcases hc with rfl | rfl | rfl | rfl | hc
    · exact b64Char_filter _ (by omega)
    · exact b64Char_filter _ (by omega)
    · exact b64Char_filter _ (by omega)
    · exact b64Char_filter _ (by omega)
    · exact ih (fun x hx => hb x (by simp [hx])) c hc

theorem b64Quads_encode : ∀ bs : List Nat, (∀ b ∈ bs, b < 256) →
    b64Quads (b64Encode bs) = .ok bs := by
  intro bs hb
  induction bs using b64Encode.induct with
  | case1 => rfl
  | case2 b =>
    have hblt : b < 256 := hb b (by simp)
    simp only [b64Encode, b64Quads]
    rw [b64Index_b64Char (b / 4) (by omega),
      b64Index_b64Char (b % 4 * 16) (by omega)]
    simp only []
    simp
    omega
  | case3 b c =>
    have hblt : b < 256 := hb b (by simp)
    have hclt : c < 256 := hb c (by simp)
    simp only [b64Encode, b64Quads]
    rw [b64Index_b64Char (b / 4) (by omega),
      b64Index_b64Char (b % 4 * 16 + c / 16) (by omega)]
    simp only []
    rw [if_neg (b64Char_ne_eq (c % 16 * 4) (by omega))]
    rw [b64Index_b64Char (c % 16 * 4) (by omega)]
    simp
    omega
  | case4 b c d rest ih =>
    have hblt : b < 256 := hb b (by simp)
    have hclt : c < 256 := hb c (by simp)
    have hdlt : d < 256 := hb d (by simp)
    simp only [b64Encode, b64Quads]
    rw [b64Index_b64Char (b / 4) (by omega),
      b64Index_b64Char (b % 4 * 16 + c / 16) (by omega)]
    simp only []
    rw [if_neg (b64Char_ne_eq (c % 16 * 4 + d / 64) (by omega))]
    rw [b64Index_b64Char (c % 16 * 4 + d / 64) (by omega)]
    simp only []
    rw [if_neg (b64Char_ne_eq (d % 64) (by omega))]
    rw [b64Index_b64Char (d % 64) (by omega)]
    simp only []
    rw [ih (fun x hx => hb x (by simp [hx]))]
    simp [Except.map]
    omega

/-- Round trip `b64decode(b64encode(bs)) == bs` for genuine byte strings. -/
theorem b64_roundtrip : ∀ bs : List Nat, (∀ b ∈ bs, b < 256) →
    b64Decode (b64Encode bs) = .ok bs := by
  intro bs hb
  unfold b64Decode
  rw [b64Encode_filter bs hb, b64Quads_encode bs hb]

theorem sha256_length : ∀ msg, (sha256 msg).length = 32 := by
  intro msg
  unfold sha256 digestBytes wordBytes
  simp

theorem sha256_bytes_lt : ∀ msg, ∀ b ∈ sha256 msg, b < 256 := by
  intro msg b hb
  unfold sha256 digestBytes wordBytes at hb
  simp only [List.mem_append, List.mem_cons, List.not_mem_nil, or_false] at hb
  omega

/-! ## Round trips through the persisted files -/

theorem read_save_roundtrip : ∀ (rec : JValue) (sig pk : List Nat),
    (∀ b ∈ sig, b < 256) → (∀ b ∈ pk, b < 256) →
    Demo.read_signed_data (Demo.save_signed_data rec sig pk) =
      .ok (rec, sig, pk) := by
  intro rec sig pk hs hp
  have h1 := b64_roundtrip sig hs
  have h2 := b64_roundtrip pk hp
  simp [Demo.read_signed_data, Demo.save_signed_data, jGet, lookupField,
    asStr, dataKey, signatureKey, publicKeyKey, Bind.bind, Except.bind,
    h1, h2]

theorem load_save_keypair : ∀ sk pk : List Nat,
    (∀ b ∈ sk, b < 256) → (∀ b ∈ pk, b < 256) →
    Demo.load_keypair (Demo.save_keypair ⟨sk, pk⟩) = .ok ⟨sk, pk⟩ := by
  intro sk pk hs hp
  have h1 := b64_roundtrip sk hs
  have h2 := b64_roundtrip pk hp
  simp [Demo.load_keypair, Demo.save_keypair, jGet, lookupField, asStr,
    privateKeyKey, publicKeyKey, Bind.bind, Except.bind, h1, h2]

/-! ## The claims -/

/-- C1 (corrected): the claim says `verify_signature` never raises and
returns a boolean for every digest, signature and public key, including a
public key whose length is not 32 bytes.  This theorem refutes it on a
concrete input: with a 0-byte public key the operation raises `ValueError`
(the key object is constructed outside the `try` block), so no boolean is
returned. -/
theorem C1_counterexample :
    Demo.verify_signature edInstance [] [] [] = .error .valueError := rfl

/-- C1 (amended): for a 32-byte public key `verify_signature` never raises:
it returns the library verdict as a boolean, and in particular returns
`false` for a structurally invalid (wrong-length) signature; for a public
key whose length is not 32 bytes it raises `ValueError` instead of
returning `false`. -/
theorem C1_verify_error_handling :
    ∀ (E : Ed25519Lib) (data_hash signature public_key : List Nat),
    (public_key.length = 32 →
      Demo.verify_signature E data_hash signature public_key =
        .ok (E.verifyOk public_key signature data_hash)) ∧
    (public_key.length = 32 → signature.length ≠ 64 →
      Demo.verify_signature E data_hash signature public_key = .ok false) ∧
    (public_key.length ≠ 32 →
      Demo.verify_signature E data_hash signature public_key =
        .error .valueError) := by
  intro E data_hash signature public_key
  refine ⟨?_, ?_, ?_⟩
  · intro h32
    simp [Demo.verify_signature, h32]
  · intro h32 hsig
    simp [Demo.verify_signature, h32, E.verify_badlen _ _ _ hsig]
  · intro h32
    simp [Demo.verify_signature, h32]

theorem C1_witness :
    Demo.verify_signature edInstance [] [] (List.replicate 32 0) =
      .ok false ∧
    Demo.verify_signature edInstance [] [] [0] = .error .valueError :=
  ⟨(C1_verify_error_handling edInstance [] [] (List.replicate 32 0)).2.1
      (by simp) (by decide),
   (C1_verify_error_handling edInstance [] [] [0]).2.2 (by decide)⟩

/-- C2 (confirmed): for well-formed records (pairwise-distinct mapping keys
at every level), canonicalization produces byte-for-byte identical output
exactly for field-for-field equal records — records equal up to a
permutation of the key insertion order at any nesting level (`KeyPerm`).
The right-to-left direction is order-invariance; the left-to-right
direction says equal canonical bytes force field-for-field equality. -/
theorem C2_canonicalization : ∀ r1 r2 : JValue,
    wfB r1 = true → wfB r2 = true →
    (canonicalBytes r1 = canonicalBytes r2 ↔ KeyPerm r1 r2) := by
  intro r1 r2 hw1 _
  constructor
  · intro h
    exact keyPerm_of_sortRec_eq r1 r2 ((canonicalBytes_iff r1 r2).mp h)
  · intro h
    exact (canonicalBytes_iff r1 r2).mpr (keyPerm_sortRec r1 r2 h hw1)

theorem C2_witness :
    canonicalBytes (.obj [(['b'], .num 1), (['a'], .num 2)]) =
      canonicalBytes (.obj [(['a'], .num 2), (['b'], .num 1)]) :=
  (C2_canonicalization _ _ (by decide) (by decide)).mpr
    (KeyPerm.obj
      (KeyPermFields.cons (KeyPerm.num 1)
        (KeyPermFields.cons (KeyPerm.num 2) KeyPermFields.nil))
      (List.Perm.swap (['a'], JValue.num 2) (['b'], JValue.num 1) []))

/-- C3 (confirmed): for every keypair produced by `generate_keypair` (the
library draws 32 random bytes) and every record, signing the record's
digest with the private key succeeds and the signature verifies against
the generated public key. -/
theorem C3_sign_verify_roundtrip :
    ∀ (E : Ed25519Lib) (entropy : List Nat) (r : JValue),
    entropy.length = 32 →
    Demo.sign_data E (Demo.hash_sentiment_data r)
      (Demo.generate_keypair E entropy).private_key =
      .ok (E.sign entropy (Demo.hash_sentiment_data r)) ∧
    Demo.verify_signature E (Demo.hash_sentiment_data r)
      (E.sign entropy (Demo.hash_sentiment_data r))
      (Demo.generate_keypair E entropy).public_key = .ok true := by
  intro E entropy r h32
  constructor
  · simp [Demo.sign_data, Demo.generate_keypair, h32]
  · simp [Demo.verify_signature, Demo.generate_keypair, E.pub_len,
      E.verify_sign]

theorem C3_witness :
    Demo.verify_signature edInstance
      (Demo.hash_sentiment_data (.obj []))
      (edInstance.sign (List.replicate 32 0)
        (Demo.hash_sentiment_data (.obj [])))
      (Demo.generate_keypair edInstance
        (List.replicate 32 0)).public_key = .ok true :=
  (C3_sign_verify_roundtrip edInstance (List.replicate 32 0) (.obj [])
    (by simp)).2

/-- C4 (corrected): the claim says the comparison walks the union of both
records' key sets and reports a field present in only one record.  This
theorem refutes it on a concrete input: field `b` is present only in the
second record with value `2`, yet the comparison loop reports no
difference, because it iterates only the first record's keys. -/
theorem C4_counterexample :
    Compare.diffFields [(['a'], .num 1)] [(['a'], .num 1), (['b'], .num 2)] =
      .ok [] ∧
    lookupField ['b'] [(['a'], .num 1)] = none ∧
    lookupField ['b'] [(['a'], .num 1), (['b'], .num 2)] = some (.num 2) :=
  ⟨rfl, rfl, rfl⟩

/-- C4 (amended): the comparison loop walks only the *first* record's keys.
If some key of the first record is missing from the second it raises
`KeyError`; otherwise it reports exactly the first record's fields whose
value in the second record differs.  Fields present only in the second
record are never examined. -/
theorem C4_comparison_walk : ∀ orig tamp : List JField,
    noDupKeys orig = true →
    ((∃ p ∈ orig, lookupField p.1 tamp = none) →
      Compare.diffFields orig tamp = .error .keyError) ∧
    ((∀ p ∈ orig, (lookupField p.1 tamp).isSome = true) →
      ∃ l, Compare.diffFields orig tamp = .ok l ∧
        ∀ k v w, (k, v, w) ∈ l ↔
          ((k, v) ∈ orig ∧ lookupField k tamp = some w ∧ v ≠ w)) := by
  intro orig
  induction orig with
  | nil =>
    intro tamp _
    constructor
    · intro ⟨p, hp, _⟩
      simp at hp
    · intro _
      refine ⟨[], rfl, ?_⟩
      intro k v w
      simp
  | cons p rest ih =>
    obtain ⟨k0, v0⟩ := p
    intro tamp hnd
    simp only [noDupKeys, Bool.and_eq_true, Bool.not_eq_true'] at hnd
    obtain ⟨hk0, hndr⟩ := hnd
    constructor
    · intro ⟨q, hq, hqn⟩
      rcases List.mem_cons.mp hq with rfl | hq
      · simp only [Compare.diffFields]
        rw [hqn]
      · simp only [Compare.diffFields]
        cases hl : lookupField k0 tamp with
        | none => rfl
        | some w0 =>
          have := ((ih tamp hndr).1 ⟨q, hq, hqn⟩)
          simp only []
          by_cases hvw : v0 = w0
          · rw [if_pos hvw, this]
          · rw [if_neg hvw, this]
            rfl
    · intro hall
      have hk0some := hall (k0, v0) (by simp)
      cases hl : lookupField k0 tamp with
      | none => rw [hl] at hk0some; simp at hk0some
      | some w0 =>
        obtain ⟨l, hlok, hmem⟩ := (ih tamp hndr).2
          (fun q hq => hall q (List.mem_cons_of_mem (k0, v0) hq))
        by_cases hvw : v0 = w0
        · refine ⟨l, ?_, ?_⟩
          · simp only [Compare.diffFields]
            rw [hl]
            simp only []
            rw [if_pos hvw, hlok]
          · intro k v w
            rw [hmem k v w]
            constructor
            · intro ⟨hm, hlk, hne⟩
              exact ⟨List.mem_cons_of_mem _ hm, hlk, hne⟩
            · intro ⟨hm, hlk, hne⟩
              rcases List.mem_cons.mp hm with heq | hm
              · injection heq with heq1 heq2
                subst heq1
                subst heq2
                rw [hl] at hlk
                injection hlk with hlk
                exact absurd (hvw.trans hlk) hne
              · exact ⟨hm, hlk, hne⟩
        · refine ⟨(k0, v0, w0) :: l, ?_, ?_⟩
          · simp only [Compare.diffFields]
            rw [hl]
            simp only []
            rw [if_neg hvw, hlok]
            rfl
          · intro k v w
            constructor
            · intro hm
              rcases List.mem_cons.mp hm with heq | hm
              · injection heq with heq1 heq2
                injection heq2 with heq2 heq3
                subst heq1
                subst heq2
                subst heq3
                exact ⟨by simp, hl, hvw⟩
              · obtain ⟨hm', hlk, hne⟩ := (hmem k v w).mp hm
                exact ⟨List.mem_cons_of_mem _ hm', hlk, hne⟩
            · intro ⟨hm, hlk, hne⟩
              rcases List.mem_cons.mp hm with heq | hm
              · injection heq with heq1 heq2
                subst heq1
                subst heq2
                rw [hl] at hlk
                injection hlk with hlk
                subst hlk
                exact List.mem_cons_self _ _
              · exact List.mem_cons_of_mem _ ((hmem k v w).mpr ⟨hm, hlk, hne⟩)

theorem C4_witness :
    Compare.diffFields [(['a'], JValue.num 1), (['c'], JValue.num 3)]
        [(['c'], JValue.num 3)] = .error .keyError ∧
    ∃ l, Compare.diffFields [(['a'], JValue.num 1), (['c'], JValue.num 3)]
        [(['a'], JValue.num 5), (['c'], JValue.num 3)] = .ok l ∧
      ∀ k v w, (k, v, w) ∈ l ↔
        ((k, v) ∈ [(['a'], JValue.num 1), (['c'], JValue.num 3)] ∧
          lookupField k [(['a'], JValue.num 5), (['c'], JValue.num 3)] =
            some w ∧ v ≠ w) :=
  ⟨(C4_comparison_walk _ [(['c'], JValue.num 3)] (by decide)).1
      ⟨(['a'], JValue.num 1), by simp, rfl⟩,
   (C4_comparison_walk _ [(['a'], JValue.num 5), (['c'], JValue.num 3)]
      (by decide)).2 (by decide)⟩

/-- C5 (corrected): the claim says `load_keypair` fails whenever a decoded
key is not exactly 32 bytes.  This theorem refutes it on a concrete input:
a keystore whose private key decodes to 5 bytes loads successfully — the
code performs no length validation. -/
theorem C5_counterexample :
    Demo.load_keypair (.json (.obj
      [(privateKeyKey, .str (b64Encode [1, 2, 3, 4, 5])),
       (publicKeyKey, .str (b64Encode (List.replicate 32 7)))])) =
      .ok ⟨[1, 2, 3, 4, 5], List.replicate 32 7⟩ := by
  have h5 : (∀ b ∈ [1, 2, 3, 4, 5], b < 256) := by decide
  have h32 : (∀ b ∈ List.replicate 32 7, b < 256) := by
    intro b hb
    rw [List.eq_of_mem_replicate hb]
    omega
  exact load_save_keypair [1, 2, 3, 4, 5] (List.replicate 32 7) h5 h32

/-- C5 (amended): `load_keypair` fails on a missing file, on malformed
JSON, and on a keystore without the expected fields, but performs no
length validation: any keystore written by `save_keypair` loads back
verbatim, whatever the byte lengths of its keys. -/
theorem C5_load_keypair : ∀ sk pk : List Nat,
    (∀ b ∈ sk, b < 256) → (∀ b ∈ pk, b < 256) →
    Demo.load_keypair .missing = .error .fileNotFound ∧
    Demo.load_keypair .invalidJson = .error .jsonDecode ∧
    Demo.load_keypair (.json (.obj [])) = .error .keyError ∧
    Demo.load_keypair (Demo.save_keypair ⟨sk, pk⟩) = .ok ⟨sk, pk⟩ := by
  intro sk pk hs hp
  exact ⟨rfl, rfl, rfl, load_save_keypair sk pk hs hp⟩

theorem C5_witness :
    Demo.load_keypair .missing = .error .fileNotFound ∧
    Demo.load_keypair (Demo.save_keypair ⟨[9], [8]⟩) = .ok ⟨[9], [8]⟩ :=
  ⟨(C5_load_keypair [9] [8] (by decide) (by decide)).1,
   (C5_load_keypair [9] [8] (by decide) (by decide)).2.2.2⟩

/-- C6 (corrected): the claim says `open_and_verify` returns a pair of the
embedded record and the boolean verdict for every persisted envelope.
This theorem refutes it on a concrete input: an envelope whose public key
decodes to 1 byte makes `verify_signed_data` raise `ValueError`, so
neither a record nor a verdict is returned (and on success the function
returns only the boolean, never the record). -/
theorem C6_counterexample :
    Demo.verify_signed_data edInstance
      (Demo.save_signed_data (.obj []) (List.replicate 64 0) [1]) =
      .error .valueError := by
  have h := read_save_roundtrip (.obj []) (List.replicate 64 0) [1]
    (by intro b hb; rw [List.eq_of_mem_replicate hb]; omega) (by decide)
  simp only [Demo.verify_signed_data, Bind.bind, Except.bind]
  rw [h]
  simp [Demo.verify_signature]

/-- C6 (amended): for a well-formed envelope whose public key decodes to
32 bytes, `verify_signed_data` returns only the boolean verdict obtained
by recomputing the digest from the embedded record and delegating to the
library verification; the record itself is not part of the return value,
and an envelope with a wrong-length public key raises `ValueError`. -/
theorem C6_open_and_verify :
    ∀ (E : Ed25519Lib) (rec : JValue) (sig pk : List Nat),
    (∀ b ∈ sig, b < 256) → (∀ b ∈ pk, b < 256) →
    (pk.length = 32 →
      Demo.verify_signed_data E (Demo.save_signed_data rec sig pk) =
        .ok (E.verifyOk pk sig (Demo.hash_sentiment_data rec))) ∧
    (pk.length ≠ 32 →
      Demo.verify_signed_data E (Demo.save_signed_data rec sig pk) =
        .error .valueError) := by
  intro E rec sig pk hsig hpk
  have h := read_save_roundtrip rec sig pk hsig hpk
  constructor
  · intro h32
    simp only [Demo.verify_signed_data, Bind.bind, Except.bind]
    rw [h]
    simp [Demo.verify_signature, h32]
  · intro h32
    simp only [Demo.verify_signed_data, Bind.bind, Except.bind]
    rw [h]
    simp [Demo.verify_signature, h32]

theorem C6_witness :
    Demo.verify_signed_data edInstance
      (Demo.save_signed_data (.obj []) [5] (List.replicate 32 0)) =
      .ok (edInstance.verifyOk (List.replicate 32 0) [5]
        (Demo.hash_sentiment_data (.obj []))) :=
  (C6_open_and_verify edInstance (.obj []) [5] (List.replicate 32 0)
    (by decide)
    (by intro b hb; rw [List.eq_of_mem_replicate hb]; omega)).1 (by simp)

/-- C7 (corrected): the claim says the canonical encoder aborts with an
`EncodingError` on NaN or Infinity.  This theorem refutes it on a concrete
input: `json.dumps` keeps its `allow_nan=True` default, so the record
`{"score": nan}` canonicalizes to the bytes of `{"score": NaN}` instead of
raising. -/
theorem C7_counterexample :
    canonicalBytes (.obj [(['s', 'c', 'o', 'r', 'e'], .nan)]) =
      [123, 34, 115, 99, 111, 114, 101, 34, 58, 32, 78, 97, 78, 125] := by
  decide

/-- C7 (amended): the canonical encoder is total on NaN and the
infinities: it renders them as the literals `NaN`, `Infinity` and
`-Infinity` (the `allow_nan=True` default of `json.dumps`), producing
canonical bytes for every such record rather than raising. -/
theorem C7_nan_encoding : ∀ k : List Char,
    canonicalJson (.obj [(k, .nan)]) =
      '{' :: '"' :: (escStr k ++
        '"' :: ':' :: ' ' :: 'N' :: 'a' :: 'N' :: ['}']) ∧
    canonicalJson (.obj [(k, .inf)]) =
      '{' :: '"' :: (escStr k ++ '"' :: ':' :: ' ' :: 'I' :: 'n' :: 'f' ::
        'i' :: 'n' :: 'i' :: 't' :: 'y' :: ['}']) ∧
    canonicalJson (.obj [(k, .negInf)]) =
      '{' :: '"' :: (escStr k ++ '"' :: ':' :: ' ' :: '-' :: 'I' :: 'n' ::
        'f' :: 'i' :: 'n' :: 'i' :: 't' :: 'y' :: ['}']) := by
  intro k
  refine ⟨?_, ?_, ?_⟩ <;>
    simp [canonicalJson, sortRec, sortRecFields, sortFields, insertField,
      serJ, serFields, serField, serObjTail]

/-- C8 (corrected): the claim says the report is ordered lexicographically
by key.  This theorem refutes it on a concrete input: both fields differ,
and the report lists key `b` before key `a` although `a` sorts strictly
first — the loop follows the first record's insertion order. -/
theorem C8_counterexample :
    Compare.diffFields [(['b'], .num 1), (['a'], .num 2)]
        [(['b'], .num 9), (['a'], .num 8)] =
      .ok [(['b'], .num 1, .num 9), (['a'], .num 2, .num 8)] ∧
    clLe ['a'] ['b'] = true ∧ (['a'] : List Char) ≠ ['b'] :=
  ⟨rfl, rfl, by decide⟩

/-- C8 (amended): the sequence of reported fields follows the *insertion
order of the first record's keys* (the order of the loop over
`original_data["data"]`): the reported keys are exactly the first record's
keys, in order, restricted to the fields whose value in the second record
differs. -/
theorem C8_report_order : ∀ (orig tamp : List JField)
    (l : List (List Char × JValue × JValue)),
    Compare.diffFields orig tamp = .ok l →
    l.map Prod.fst = (orig.filter (fun p =>
      match lookupField p.1 tamp with
      | some w => decide (p.2 ≠ w)
      | none => false)).map Prod.fst := by
  intro orig
  induction orig with
  | nil =>
    intro tamp l h
    simp only [Compare.diffFields] at h
    injection h with h
    subst h
    rfl
  | cons p rest ih =>
    obtain ⟨k0, v0⟩ := p
    intro tamp l h
    simp only [Compare.diffFields] at h
    cases hl : lookupField k0 tamp with
    | none => rw [hl] at h; cases h
    | some w0 =>
      rw [hl] at h
      simp only [] at h
      by_cases hvw : v0 = w0
      · rw [if_pos hvw] at h
        rw [List.filter_cons_of_neg]
        · exact ih tamp l h
        · simp [hl, hvw]
      · rw [if_neg hvw] at h
        cases hrec : Compare.diffFields rest tamp with
        | error e => rw [hrec] at h; cases h
        | ok l' =>
          rw [hrec] at h
          simp only [Except.map] at h
          injection h with h
          subst h
          rw [List.filter_cons_of_pos]
          · simp only [List.map_cons]
            rw [ih tamp l' hrec]
          · simp [hl, hvw]

theorem C8_witness :
    [(['b'], JValue.num 1, JValue.num 9),
      (['a'], JValue.num 2, JValue.num 8)].map Prod.fst =
    ([(['b'], JValue.num 1), (['a'], JValue.num 2)].filter (fun p =>
      match lookupField p.1 [(['b'], JValue.num 9), (['a'], JValue.num 8)]
        with
      | some w => decide (p.2 ≠ w)
      | none => false)).map Prod.fst :=
  C8_report_order [(['b'], JValue.num 1), (['a'], JValue.num 2)]
    [(['b'], JValue.num 9), (['a'], JValue.num 8)]
    [(['b'], JValue.num 1, JValue.num 9),
      (['a'], JValue.num 2, JValue.num 8)] rfl

/-- C9 (confirmed): saving an envelope and loading it back yields the same
envelope field-for-field: the record is embedded verbatim in the envelope
JSON and read back unchanged, and the signature and public key survive the
base64 encode/decode round trip. -/
theorem C9_envelope_roundtrip : ∀ (rec : JValue) (sig pk : List Nat),
    (∀ b ∈ sig, b < 256) → (∀ b ∈ pk, b < 256) →
    Demo.read_signed_data (Demo.save_signed_data rec sig pk) =
      .ok (rec, sig, pk) :=
  read_save_roundtrip

theorem C9_witness :
    Demo.read_signed_data (Demo.save_signed_data
        (.obj [(['i', 'd'], .str ['1'])]) [255, 0, 17] [3, 64]) =
      .ok (.obj [(['i', 'd'], .str ['1'])], [255, 0, 17], [3, 64]) :=
  C9_envelope_roundtrip (.obj [(['i', 'd'], .str ['1'])]) [255, 0, 17]
    [3, 64] (by decide) (by decide)

/-- C10 (confirmed): the three independently implemented hashing routines
agree on every record: the copy of `hash_sentiment_data` in
`verify_tampering.py` computes the same digest as the one in `demo.py`,
the digest is 32 bytes of values below 256, and `hash_data` in
`compare_hashes.py` is exactly its lowercase hexadecimal encoding. -/
theorem C10_hash_agreement : ∀ r : JValue,
    Tamper.hash_sentiment_data r = Demo.hash_sentiment_data r ∧
    Compare.hash_data r = bytesHexLower (Demo.hash_sentiment_data r) ∧
    (Demo.hash_sentiment_data r).length = 32 ∧
    ∀ b ∈ Demo.hash_sentiment_data r, b < 256 := by
  intro r
  exact ⟨rfl, rfl, sha256_length _, sha256_bytes_lt _⟩
